import Mathlib

/-!
Verification of the MiniThings markdown task manager (`src/App.jsx`: a React
UI plus a Node HTTP server persisting tasks as markdown files with JSON-valued
frontmatter, and an append-only logbook).

Modelling conventions:
* JavaScript strings are modelled as `List Char` (`Str`); the JS string
  methods used by the code (`trim`, `toLowerCase`, `split`, `includes`,
  `indexOf`/`slice`, regexes) are re-implemented below on `List Char`.
* JavaScript dynamic values reaching `normalizeTask`/`normalizeTags` are
  modelled by the inductive `JsVal` (undefined, null, string, number,
  boolean, NaN, array-of-strings).  Array elements are stringified eagerly,
  which is behaviour-equivalent for every use in the program (each element
  immediately passes through `String(value ?? "")`).
* JavaScript numbers are modelled as `Int`: every `order` value the system
  itself produces is integral.  `NaN` gets its own constructor (`vnan`) so
  that `Number(...)` coercion failures and the `Number.isFinite` check are
  faithful.
* `new Date().toISOString()` and `randomUUID()` are modelled as explicit
  `now` / fresh-id parameters threaded through the operations.
-/

namespace MiniThings

/-- JS strings as explicit character lists. -/
abbrev Str := List Char

/-- Convert a Lean string literal to the model representation. -/
def str (s : String) : Str := s.data

/-- The whitespace class used by JS `trim` (the characters that can actually
occur here: ASCII whitespace plus NBSP). -/
def isWs (c : Char) : Bool :=
  c = ' ' || c = '\t' || c = '\n' || c = '\r' ||
  c = '\x0b' || c = '\x0c' || c = ' '

/-- `String.prototype.trimStart`. -/
def trimLeft (s : Str) : Str := s.dropWhile isWs

/-- `String.prototype.trimEnd`. -/
def trimRight (s : Str) : Str := (s.reverse.dropWhile isWs).reverse

/-- `String.prototype.trim`. -/
def trimStr (s : Str) : Str := trimRight (trimLeft s)

/-- `String.prototype.toLowerCase` (ASCII; the program only compares tag
keys, for which `Char.toLower` agrees with JS on all inputs it meets). -/
def lowerStr (s : Str) : Str := s.map Char.toLower

/-- `String.prototype.split(sep)` for a one-character separator. -/
def splitOnChar (c : Char) (s : Str) : List Str :=
  match s with
  | [] => [[]]
  | a :: rest =>
    let r := splitOnChar c rest
    if a = c then [] :: r
    else match r with
         | [] => [[a]]
         | h :: t => (a :: h) :: t

/-- `Array.prototype.join(sep)` for a one-character separator. -/
def joinChar (c : Char) : List Str → Str
  | [] => []
  | [l] => l
  | l :: ls => l ++ c :: joinChar c ls

/-- Decimal digits of a natural number, with structural fuel (the fuel is
always sufficient: each step divides `n` by 10). -/
def natToStrAux (fuel : Nat) (n : Nat) : Str :=
  match fuel with
  | 0 => []
  | fuel + 1 =>
    if n < 10 then [Char.ofNat (48 + n)]
    else natToStrAux fuel (n / 10) ++ [Char.ofNat (48 + n % 10)]

/-- `String(n)` for `n : Nat`. -/
def natToStr (n : Nat) : Str := natToStrAux (n + 1) n

/-- `String(n)` for an integer JS number. -/
def intToStr (n : Int) : Str :=
  if n < 0 then '-' :: natToStr (-n).toNat else natToStr n.toNat

/-- JavaScript values as they reach the task-normalization layer. -/
inductive JsVal where
  | undef
  | vnull
  | vstr (s : Str)
  | vnum (n : Int)
  | vbool (b : Bool)
  | vnan
  | varr (l : List Str)
  deriving DecidableEq, Repr

namespace JsVal

/-- `String(v)` coercion. -/
def jsString : JsVal → Str
  | undef => str "undefined"
  | vnull => str "null"
  | vstr s => s
  | vnum n => intToStr n
  | vbool true => str "true"
  | vbool false => str "false"
  | vnan => str "NaN"
  | varr l => joinChar ',' l

/-- JS truthiness (`Boolean(v)`). -/
def truthy : JsVal → Bool
  | undef => false
  | vnull => false
  | vstr s => decide (s ≠ [])
  | vnum n => n != 0
  | vbool b => b
  | vnan => false
  | varr _ => true

/-- `a ?? b`. -/
def nullish : JsVal → JsVal → JsVal
  | undef, b => b
  | vnull, b => b
  | a, _ => a

/-- `Array.isArray(v)`. -/
def isArr : JsVal → Bool
  | varr _ => true
  | _ => false

end JsVal

open JsVal

/-! ## Tag normalization (server `normalizeTags`, UI `normalizeTaskTags`) -/

/-- The shared de-duplication loop of `normalizeTags` / `normalizeTaskTags`:
trim each entry, drop empties, and drop entries whose lowercase key was
already seen. -/
def dedupeTags : List Str → List Str → List Str
  | [], _ => []
  | v :: rest, seen =>
    let tag := trimStr v
    if tag = [] then dedupeTags rest seen
    else
      let key := lowerStr tag
      if key ∈ seen then dedupeTags rest seen
      else tag :: dedupeTags rest (key :: seen)

/-- `DEFAULT_TAG`. -/
def defaultTag : Str := str "General"

/-- The seed tasks' `(id, tags)` pairs (server `seedTasks`, the fields
`inferDefaultTags` reads). -/
def seedTags : List (Str × List Str) :=
  [ (str "t1", [str "Personal"])
  , (str "t2", [str "Work"])
  , (str "t3", [str "Health"])
  , (str "t4", [str "Work"])
  , (str "t5", [str "Personal"]) ]

/-- Server `inferDefaultTags`. -/
def inferDefaultTags (taskId : Str) : List Str :=
  match seedTags.find? (fun p => p.1 = taskId) with
  | some p => if p.2 = [] then [defaultTag] else p.2
  | none => [defaultTag]

/-- The `rawTags` selection of server `normalizeTags`: an array is used as
is, a nullish value falls back to the seed-inferred defaults, and any other
value is stringified and split on commas (when it has any). -/
def normalizeTagsRaw (inputTags : JsVal) (fallbackTaskId : Str) : List Str :=
  if inputTags.isArr then
    match inputTags with
    | .varr l => l
    | _ => []
  else if inputTags = .undef || inputTags = .vnull then
    inferDefaultTags fallbackTaskId
  else if ',' ∈ inputTags.jsString then
    splitOnChar ',' inputTags.jsString
  else [inputTags.jsString]

/-- Server `normalizeTags(inputTags, fallbackTaskId)`. -/
def normalizeTags (inputTags : JsVal) (fallbackTaskId : Str) : List Str :=
  let tags := dedupeTags (normalizeTagsRaw inputTags fallbackTaskId) []
  if tags = [] then [defaultTag] else tags

/-- The `rawTags` selection of the UI's `normalizeTaskTags`; `tagsField` is
the `tags` field when it is an array, `tagField` the scalar `tag` field
(JS-null modelled as `""`, which is coercion-equivalent everywhere this
function is used). -/
def normalizeTaskTagsRaw (tagsField : Option (List Str)) (tagField : Option Str) : List Str :=
  match tagsField with
  | some l => l
  | none =>
    match tagField with
    | some t => if t = [] then [defaultTag] else [t]
    | none => [defaultTag]

/-- UI `normalizeTaskTags(task)`. -/
def normalizeTaskTags (tagsField : Option (List Str)) (tagField : Option Str) : List Str :=
  let tags := dedupeTags (normalizeTaskTagsRaw tagsField tagField) []
  if tags = [] then [defaultTag] else tags

/-! ## Task records and `normalizeTask` -/

/-- A normalized task record (the shape every store operation produces). -/
structure Task where
  id : Str
  title : Str
  description : Str
  tags : List Str
  done : Bool
  order : Int
  createdAt : Str
  updatedAt : Str
  deriving DecidableEq, Repr

/-- A raw (dynamic) task object as it reaches `normalizeTask`. -/
structure RawTask where
  id : JsVal := .undef
  title : JsVal := .undef
  description : JsVal := .undef
  tags : JsVal := .undef
  tag : JsVal := .undef
  done : JsVal := .undef
  order : JsVal := .undef
  createdAt : JsVal := .undef
  updatedAt : JsVal := .undef
  deriving DecidableEq, Repr

/-- Server `normalizeTask(task)`; `now` models `new Date().toISOString()`.
`createdAt`/`updatedAt` of the result are the `String(...)` image of the
kept raw value (the program only ever stores strings there itself). -/
def normalizeTask (task : RawTask) (now : Str) : Task :=
  let id := task.id.jsString
  { id := id
    title :=
      let t := trimStr (task.title.nullish (.vstr (str "Untitled"))).jsString
      if t = [] then str "Untitled" else t
    description := (task.description.nullish (.vstr [])).jsString
    tags := normalizeTags (task.tags.nullish task.tag) id
    done := task.done.truthy
    order :=
      match task.order with
      | .vnum n => n
      | _ => 0
    createdAt := if task.createdAt.truthy then task.createdAt.jsString else now
    updatedAt := if task.updatedAt.truthy then task.updatedAt.jsString else now }

/-- Re-embed a normalized record as a raw object (a `Task` value passed back
into `normalizeTask`, as `writeTask` and the update/reorder handlers do). -/
def taskToRaw (t : Task) : RawTask :=
  { id := .vstr t.id
    title := .vstr t.title
    description := .vstr t.description
    tags := .varr t.tags
    tag := .undef
    done := .vbool t.done
    order := .vnum t.order
    createdAt := .vstr t.createdAt
    updatedAt := .vstr t.updatedAt }

/-! ## Filenames (`slugify`, `taskFilename`) -/

/-- The character class `[a-z0-9]` of `slugify`'s regex. -/
def isSlugChar (c : Char) : Bool :=
  ('a' ≤ c && c ≤ 'z') || ('0' ≤ c && c ≤ '9')

theorem dropWhile_length_le (p : Char → Bool) (l : Str) :
    (l.dropWhile p).length ≤ l.length := by
  induction l with
  | nil => simp [List.dropWhile]
  | cons c rest ih =>
    by_cases h : p c
    · simp only [List.dropWhile, h]
      exact Nat.le_succ_of_le ih
    · simp [List.dropWhile, h]

/-- `.replace(/[^a-z0-9]+/g, "-")`: each maximal run of non-alphanumeric
characters becomes a single hyphen (the flag records whether the current
position is inside a run whose hyphen was already emitted). -/
def collapseRunsAux : Bool → Str → Str
  | _, [] => []
  | inRun, c :: rest =>
    if isSlugChar c then c :: collapseRunsAux false rest
    else if inRun then collapseRunsAux true rest
    else '-' :: collapseRunsAux true rest

def collapseRuns (s : Str) : Str := collapseRunsAux false s

/-- `.replace(/^-+|-+$/g, "")`. -/
def stripHyphens (s : Str) : Str :=
  ((s.dropWhile (· = '-')).reverse.dropWhile (· = '-')).reverse

/-- Server `slugify(input)`. -/
def slugify (input : Str) : Str :=
  let s := trimStr (lowerStr input)
  let r := (stripHyphens (collapseRuns s)).take 64
  if r = [] then str "task" else r

/-- Server `taskFilename(task)`. -/
def taskFilename (t : Task) : Str :=
  t.id ++ str "--" ++ slugify t.title ++ str ".md"

/-! ## JSON serialization (`JSON.stringify` on the frontmatter values) -/

/-- Lowercase hex digit. -/
def hexChar (n : Nat) : Char :=
  if n < 10 then Char.ofNat (48 + n) else Char.ofNat (87 + n)

/-- How `JSON.stringify` renders one character inside a string literal. -/
def jsonEscapeChar (c : Char) : Str :=
  if c = '"' then ['\\', '"']
  else if c = '\\' then ['\\', '\\']
  else if c = '\x08' then ['\\', 'b']
  else if c = '\t' then ['\\', 't']
  else if c = '\n' then ['\\', 'n']
  else if c = '\x0c' then ['\\', 'f']
  else if c = '\r' then ['\\', 'r']
  else if c.toNat < 32 then
    ['\\', 'u', '0', '0', hexChar (c.toNat / 16), hexChar (c.toNat % 16)]
  else [c]

/-- `JSON.stringify` of a string. -/
def jsonStr (s : Str) : Str :=
  '"' :: (s.map jsonEscapeChar).flatten ++ ['"']

/-- `JSON.stringify` of an array of strings (no whitespace is emitted). -/
def jsonStrArray (l : List Str) : Str :=
  '[' :: joinChar ',' (l.map jsonStr) ++ [']']

/-- `JSON.stringify` of a boolean. -/
def jsonBool (b : Bool) : Str :=
  if b then str "true" else str "false"

/-- Server `taskToMarkdown(rawTask)` (it normalizes its argument itself). -/
def taskToMarkdown (rawTask : RawTask) (now : Str) : Str :=
  let task := normalizeTask rawTask now
  joinChar '\n'
    [ str "---"
    , str "id: " ++ jsonStr task.id
    , str "title: " ++ jsonStr task.title
    , str "tags: " ++ jsonStrArray task.tags
    , str "done: " ++ jsonBool task.done
    , str "order: " ++ intToStr task.order
    , str "createdAt: " ++ jsonStr task.createdAt
    , str "updatedAt: " ++ jsonStr task.updatedAt
    , str "---"
    , []
    , trimRight task.description
    , [] ]

/-! ## JSON parsing (`JSON.parse` restricted to the value forms the
frontmatter can contain: strings, arrays of strings, booleans, null, and
integer numerals; anything else is a parse failure, which the frontmatter
reader turns into the raw-string fallback) -/

def digitVal (c : Char) : Option Nat :=
  if '0' ≤ c ∧ c ≤ '9' then some (c.toNat - 48) else none

def hexVal (c : Char) : Option Nat :=
  if '0' ≤ c ∧ c ≤ '9' then some (c.toNat - 48)
  else if 'a' ≤ c ∧ c ≤ 'f' then some (c.toNat - 87)
  else if 'A' ≤ c ∧ c ≤ 'F' then some (c.toNat - 55)
  else none

/-- Decode of a single-character JSON escape. -/
def escDecode : Char → Option Char
  | '"' => some '"'
  | '\\' => some '\\'
  | '/' => some '/'
  | 'b' => some '\x08'
  | 'f' => some '\x0c'
  | 'n' => some '\n'
  | 'r' => some '\r'
  | 't' => some '\t'
  | _ => none

/-- The code point of a `\uXXXX` escape. -/
def hex4 (h1 h2 h3 h4 : Char) : Option Nat :=
  match hexVal h1, hexVal h2, hexVal h3, hexVal h4 with
  | some a, some b, some c, some d => some (((a * 16 + b) * 16 + c) * 16 + d)
  | _, _, _, _ => none

/-- Parse the remainder of a JSON string literal (opening quote consumed);
returns the decoded content and the input following the closing quote.
Surrogate pairs are not modelled (`Char.ofNat` maps invalid code points to
NUL); the serializer only emits `\u00XX` for control characters. -/
def parseJString : Str → Option (Str × Str)
  | [] => none
  | c :: rest =>
    if c = '"' then some ([], rest)
    else if c = '\\' then
      match rest with
      | [] => none
      | e :: rest2 =>
        if e = 'u' then
          match rest2 with
          | h1 :: h2 :: h3 :: h4 :: rest3 =>
            match hex4 h1 h2 h3 h4 with
            | some code =>
              match parseJString rest3 with
              | some (s, r) => some (Char.ofNat code :: s, r)
              | none => none
            | none => none
          | _ => none
        else
          match escDecode e with
          | some d =>
            match parseJString rest2 with
            | some (s, r) => some (d :: s, r)
            | none => none
          | none => none
    else if c.toNat < 32 then none
    else
      match parseJString rest with
      | some (s, r) => some (c :: s, r)
      | none => none

set_option maxHeartbeats 1000000 in
theorem parseJString_length : ∀ (s : Str) {content rest : Str},
    parseJString s = some (content, rest) → rest.length < s.length := by
  intro s
  induction s using parseJString.induct <;> intro content rest h <;>
    unfold parseJString at h <;>
    (repeat' split at h)
  all_goals try (rcases h with ⟨rfl, rfl⟩ <;> omega)
  all_goals try (simp_all; omega)
  all_goals try simp_all
  all_goals
    exfalso
    obtain ⟨h1, -⟩ := ‹('u' : Char) = _ ∧ _ = (_ : List Char)›
    exact absurd h1.symm (by assumption)

/-- Parse `elem (, elem)* ]` where every element is a string literal; the
structural fuel is always sufficient since every element consumes at least
two characters. -/
def parseJArrayItemsAux : Nat → Str → Option (List Str × Str)
  | 0, _ => none
  | fuel + 1, s =>
    match s with
    | '"' :: rest =>
      match parseJString rest with
      | some (e, r1) =>
        match r1 with
        | ']' :: r2 => some ([e], r2)
        | ',' :: r2 =>
          match parseJArrayItemsAux fuel r2 with
          | some (es, r3) => some (e :: es, r3)
          | none => none
        | _ => none
      | none => none
    | _ => none

def parseJArrayItems (s : Str) : Option (List Str × Str) :=
  parseJArrayItemsAux s.length s

/-- Parse the digits of a JSON numeral (no leading zero). -/
def parseDigitsAcc : Str → Nat → (Nat × Str)
  | [], acc => (acc, [])
  | c :: rest, acc =>
    match digitVal c with
    | some d => parseDigitsAcc rest (acc * 10 + d)
    | none => (acc, c :: rest)

def parseJNat : Str → Option (Nat × Str)
  | [] => none
  | c :: rest =>
    match digitVal c with
    | none => none
    | some 0 =>
      match rest with
      | r :: _ => if (digitVal r).isSome then none else some (0, rest)
      | [] => some (0, [])
    | some d => some (parseDigitsAcc rest d)

/-- One JSON value (fractional and exponent numerals, nested arrays and
objects are unmodelled: on them `JSON.parse` is approximated by failure,
and the frontmatter reader then keeps the raw string). -/
def parseJsonValue (s : Str) : Option (JsVal × Str) :=
  match s with
  | [] => none
  | c :: rest =>
    if c = '"' then (parseJString rest).map (fun p => (.vstr p.1, p.2))
    else if c = '[' then
      match rest with
      | ']' :: r => some (.varr [], r)
      | _ => (parseJArrayItems rest).map (fun p => (.varr p.1, p.2))
    else if c = 't' then
      match rest with
      | 'r' :: 'u' :: 'e' :: r => some (.vbool true, r)
      | _ => none
    else if c = 'f' then
      match rest with
      | 'a' :: 'l' :: 's' :: 'e' :: r => some (.vbool false, r)
      | _ => none
    else if c = 'n' then
      match rest with
      | 'u' :: 'l' :: 'l' :: r => some (.vnull, r)
      | _ => none
    else if c = '-' then (parseJNat rest).map (fun p => (.vnum (-(p.1 : Int)), p.2))
    else (parseJNat (c :: rest)).map (fun p => (.vnum (p.1 : Int), p.2))

/-- `JSON.parse` (must consume the whole input). -/
def parseJson (s : Str) : Option JsVal :=
  match parseJsonValue s with
  | some (v, []) => some v
  | _ => none

/-! ## Frontmatter parsing (`parseMarkdownTask`) -/

/-- Split at the leftmost occurrence of `pat`: the semantics of the lazy
group in `/^---\n([\s\S]*?)\n---\n?([\s\S]*)$/` once the leading `---\n`
has been consumed. -/
def findInfixSplit (pat : Str) : Str → Option (Str × Str)
  | [] => if pat = [] then some ([], []) else none
  | c :: rest =>
    if pat.isPrefixOf (c :: rest) then some ([], (c :: rest).drop pat.length)
    else
      match findInfixSplit pat rest with
      | some (a, b) => some (c :: a, b)
      | none => none

/-- One iteration of the metadata loop: skip blank lines and lines whose
first `:` is absent or at position 0; otherwise split at the first `:`,
trim both parts, `JSON.parse` the value with raw-string fallback. -/
def parseMetaLine (line : Str) : Option (Str × JsVal) :=
  if trimStr line = [] then none
  else if ':' ∉ line then none
  else
    let i := line.findIdx (fun c => c = ':')
    if i = 0 then none
    else
      let key := trimStr (line.take i)
      let rawValue := trimStr (line.drop (i + 1))
      match parseJson rawValue with
      | some v => some (key, v)
      | none => some (key, .vstr rawValue)

/-- `meta[key] = value` for the keys `normalizeTask` reads (assignments to
other keys are retained by the JS object but never read). -/
def applyMeta (acc : RawTask) (kv : Str × JsVal) : RawTask :=
  if kv.1 = str "id" then { acc with id := kv.2 }
  else if kv.1 = str "title" then { acc with title := kv.2 }
  else if kv.1 = str "description" then { acc with description := kv.2 }
  else if kv.1 = str "tags" then { acc with tags := kv.2 }
  else if kv.1 = str "tag" then { acc with tag := kv.2 }
  else if kv.1 = str "done" then { acc with done := kv.2 }
  else if kv.1 = str "order" then { acc with order := kv.2 }
  else if kv.1 = str "createdAt" then { acc with createdAt := kv.2 }
  else if kv.1 = str "updatedAt" then { acc with updatedAt := kv.2 }
  else acc

/-- Server `parseMarkdownTask(content)`. -/
def parseMarkdownTask (content : Str) (now : Str) : Except Str Task :=
  match content with
  | '-' :: '-' :: '-' :: '\n' :: rest =>
    match findInfixSplit (str "\n---") rest with
    | some (metaText, after) =>
      let body : Str :=
        match after with
        | '\n' :: b => b
        | b => b
      let metaPairs := (splitOnChar '\n' metaText).filterMap parseMetaLine
      let raw := metaPairs.foldl applyMeta {}
      .ok (normalizeTask { raw with description := .vstr (trimStr body) } now)
    | none => .error (str "Missing frontmatter block.")
  | _ => .error (str "Missing frontmatter block.")

/-! ## File store (`writeTask`) -/

/-- The task directory: filename--content pairs. -/
abbrev Fs := List (Str × Str)

def fsNames (fs : Fs) : List Str := fs.map Prod.fst

/-- `writeFile` (overwrite if present, else create). -/
def fsWrite (fs : Fs) (name content : Str) : Fs :=
  if fs.any (fun p => p.1 = name) then
    fs.map (fun p => if p.1 = name then (name, content) else p)
  else fs ++ [(name, content)]

/-- `rm` (tolerating a missing file, as the `ENOENT` catch does). -/
def fsRemove (fs : Fs) (name : Str) : Fs :=
  fs.filter (fun p => p.1 ≠ name)

structure WriteResult where
  fs : Fs
  fileName : Str
  task : Task

/-- Server `writeTask(task, previousFileName)`. -/
def writeTask (fs : Fs) (rawTask : RawTask) (previousFileName : Option Str)
    (now : Str) : WriteResult :=
  let normalized := normalizeTask rawTask now
  let nextFileName := taskFilename normalized
  let fs1 := fsWrite fs nextFileName (taskToMarkdown (taskToRaw normalized) now)
  let fs2 :=
    match previousFileName with
    | some p => if p ≠ nextFileName then fsRemove fs1 p else fs1
    | none => fs1
  ⟨fs2, nextFileName, normalized⟩

/-! ## Logbook -/

inductive LogData where
  | taskEvent (taskId title : Str) (task : Task)
  | tagRemoved (tag taskId title : Str) (beforeTags afterTags : List Str)
  | tagEverywhere (tag : Str) (changedCount : Nat)
  | completedDeleted (count : Nat) (tasks : List Task)
  deriving DecidableEq, Repr

/-- A logbook line (`appendLogEntry`'s generated UUID is not modelled). -/
structure LogEntry where
  type : Str
  createdAt : Str
  data : LogData
  deriving DecidableEq, Repr

/-! ## HTTP handlers over the store (the store is modelled as the ordered
record list `getTaskRecords` returns; the file layer itself is modelled
separately via `writeTask` above) -/

inductive ApiError where
  | badRequest (msg : Str)
  | notFound (msg : Str)
  deriving DecidableEq, Repr

/-- The element coercion `String(value ?? "")` applied to `[body.tag]`. -/
def tagElemStr : JsVal → Str
  | .undef => []
  | .vnull => []
  | v => v.jsString

/-- `POST /api/tasks` request body. -/
structure CreateBody where
  title : JsVal := .undef
  description : JsVal := .undef
  tags : JsVal := .undef
  tag : Option JsVal := none
  done : JsVal := (.undef)

/-- Server `handleCreateTask`; `newId` models `randomUUID()`.  Returns the
response and the resulting store. -/
def handleCreateTask (state : List Task) (body : CreateBody) (newId now : Str) :
    Except ApiError Task × List Task :=
  let title := trimStr (body.title.nullish (.vstr [])).jsString
  if title = [] then (.error (.badRequest (str "Title is required.")), state)
  else
    let order : Int := state.length
    let tagsVal : JsVal :=
      if body.tags.isArr then body.tags
      else
        match body.tag with
        | some tv => .varr [tagElemStr tv]
        | none => .varr [defaultTag]
    let task := normalizeTask
      { id := .vstr newId
        title := .vstr title
        description := .vstr (body.description.nullish (.vstr [])).jsString
        tags := tagsVal
        tag := .undef
        done := .vbool body.done.truthy
        order := .vnum order
        createdAt := .vstr now
        updatedAt := .vstr now } now
    (.ok task, state ++ [task])

/-- `Number(x)` coercion, restricted to integral results (`vnan` stands for
`NaN` and for every non-integral outcome). -/
def digitsToNat : Str → Option Nat
  | [] => none
  | s => s.foldl (fun acc c =>
      match acc, digitVal c with
      | some a, some d => some (a * 10 + d)
      | _, _ => none) (some 0)

def jsToNumber : JsVal → JsVal
  | .vnum n => .vnum n
  | .vbool b => .vnum (if b then 1 else 0)
  | .vnull => .vnum 0
  | .undef => .vnan
  | .vnan => .vnan
  | .vstr s =>
    let t := trimStr s
    if t = [] then .vnum 0
    else
      match t with
      | '-' :: ds => match digitsToNat ds with
                     | some n => .vnum (-(n : Int))
                     | none => .vnan
      | ds => match digitsToNat ds with
              | some n => .vnum (n : Int)
              | none => .vnan
  | .varr l =>
    match l with
    | [] => .vnum 0
    | [s] =>
      let t := trimStr s
      if t = [] then .vnum 0
      else
        match t with
        | '-' :: ds => match digitsToNat ds with
                       | some n => .vnum (-(n : Int))
                       | none => .vnan
        | ds => match digitsToNat ds with
                | some n => .vnum (n : Int)
                | none => .vnan
    | _ => .vnan

/-- `PUT /api/tasks/{id}` request body: `none` = key absent. -/
structure UpdateBody where
  title : Option JsVal := none
  description : Option JsVal := none
  tags : Option JsVal := none
  tag : Option JsVal := none
  done : Option JsVal := none
  order : Option JsVal := none

structure UpdateOutcome where
  response : Except ApiError Task
  state : List Task
  log : List LogEntry
  deriving Repr

/-- Server `handleUpdateTask`. -/
def handleUpdateTask (state : List Task) (log : List LogEntry) (taskId : Str)
    (body : UpdateBody) (now : Str) : UpdateOutcome :=
  match state.find? (fun t => t.id = taskId) with
  | none => ⟨.error (.notFound (str "Task not found.")), state, log⟩
  | some rec0 =>
    let nextTitle :=
      match body.title with
      | none => rec0.title
      | some v => trimStr v.jsString
    if nextTitle = [] then ⟨.error (.badRequest (str "Title is required.")), state, log⟩
    else
      let base := taskToRaw rec0
      let merged : RawTask :=
        { base with
          done := match body.done with
                  | some v => .vbool v.truthy
                  | none => base.done
          description := match body.description with
                         | some v => .vstr (v.nullish (.vstr [])).jsString
                         | none => base.description
          tags := match body.tags with
                  | some v => v
                  | none =>
                    match body.tag with
                    | some tv => .varr [tagElemStr tv]
                    | none => base.tags
          order := match body.order with
                   | some v => jsToNumber v
                   | none => base.order
          title := .vstr nextTitle
          updatedAt := .vstr now }
      let saved := normalizeTask merged now
      let appended : List LogEntry :=
        if body.done.isSome && saved.done != rec0.done then
          [⟨if saved.done then str "task_completed" else str "task_reopened",
            now, .taskEvent saved.id saved.title saved⟩]
        else []
      ⟨.ok saved, state.map (fun t => if t.id = rec0.id then saved else t),
        log ++ appended⟩

/-- One record of the `handleDeleteTagEverywhere` loop: the rewritten task
and the per-task logbook entries it contributed (one if changed, none
otherwise). -/
def deleteTagStep (tagToDelete now : Str) (t : Task) : Task × List LogEntry :=
  let beforeTags := t.tags
  let nextTags := t.tags.filter (fun tg => lowerStr tg ≠ lowerStr tagToDelete)
  if nextTags.length = t.tags.length then (t, [])
  else
    let updated := normalizeTask
      { taskToRaw t with tags := .varr nextTags, updatedAt := .vstr now } now
    (updated,
     [⟨str "tag_removed_from_task", now,
       .tagRemoved tagToDelete updated.id updated.title beforeTags updated.tags⟩])

structure TagDeleteOutcome where
  response : Except ApiError (List Task × Nat)
  state : List Task
  log : List LogEntry
  deriving Repr

/-- Server `handleDeleteTagEverywhere`. -/
def handleDeleteTagEverywhere (state : List Task) (log : List LogEntry)
    (bodyTag : JsVal) (now : Str) : TagDeleteOutcome :=
  let tagToDelete := trimStr (bodyTag.nullish (.vstr [])).jsString
  if tagToDelete = [] then
    ⟨.error (.badRequest (str "Tag is required.")), state, log⟩
  else
    let results := state.map (deleteTagStep tagToDelete now)
    let newState := results.map Prod.fst
    let perTaskEntries := (results.map Prod.snd).flatten
    let changedCount := perTaskEntries.length
    let summary : List LogEntry :=
      if changedCount > 0 then
        [⟨str "tag_deleted_everywhere", now, .tagEverywhere tagToDelete changedCount⟩]
      else []
    ⟨.ok (newState, changedCount), newState, log ++ perTaskEntries ++ summary⟩

/-- The first loop of `handleReorderTasks`: keep incoming ids that are known
and unseen; returns the kept ids and the final `seen` set. -/
def reorderPick (known : List Str) : List Str → List Str → List Str × List Str
  | [], seen => ([], seen)
  | id :: rest, seen =>
    if id ∈ known ∧ id ∉ seen then
      let p := reorderPick known rest (id :: seen)
      (id :: p.1, p.2)
    else reorderPick known rest seen

/-- The write loop of `handleReorderTasks` (`byId` models the `Map`,
updated by `byId.set` as it goes). -/
def reorderWrite (byId : Str → Option Task) (now : Str) :
    List Str → Nat → List Task
  | [], _ => []
  | id :: rest, index =>
    match byId id with
    | none => reorderWrite byId now rest (index + 1)
    | some t =>
      let saved := normalizeTask
        { taskToRaw t with order := .vnum (index : Int), updatedAt := .vstr now } now
      saved :: reorderWrite (fun i => if i = id then some saved else byId i) now rest (index + 1)

/-- Server `handleReorderTasks` on a store whose `taskIds` body field is an
array (the non-array case is a 400 before any of this runs).  The result is
the rewritten record list in `orderedIds` order, which a re-read sorted by
`(order, createdAt)` returns unchanged since the written orders are
`0, 1, 2, ...`. -/
def handleReorderTasks (state : List Task) (taskIds : List Str) (now : Str) :
    List Task :=
  let known := state.map Task.id
  let p := reorderPick known taskIds []
  let orderedIds := p.1 ++ (state.filter (fun t => t.id ∉ p.2)).map Task.id
  reorderWrite (fun id => state.reverse.find? (fun t => t.id = id)) now orderedIds 0

/-- UI `removeTag` in the edit modal. -/
def uiRemoveTag (prev : List Str) (tagToRemove : Str) : List Str :=
  let next := prev.filter (fun tag => lowerStr tag ≠ lowerStr tagToRemove)
  if next = [] then [defaultTag] else next

/-! ## Lemmas: whitespace trimming -/

theorem dropWhile_self_idem (p : Char → Bool) (l : Str) :
    (l.dropWhile p).dropWhile p = l.dropWhile p := by
  induction l with
  | nil => rfl
  | cons c rest ih =>
    by_cases h : p c <;> simp [List.dropWhile_cons, h, ih]

theorem head_of_dropWhile {p : Char → Bool} {l t : Str} {c : Char}
    (h : l.dropWhile p = c :: t) : p c = false := by
  induction l with
  | nil => simp at h
  | cons a rest ih =>
    by_cases ha : p a
    · simp [List.dropWhile_cons, ha] at h
      exact ih h
    · simp [List.dropWhile_cons, ha] at h
      simpa [← h.1] using ha

theorem trimLeft_cons_ws {c : Char} (s : Str) (h : isWs c = true) :
    trimLeft (c :: s) = trimLeft s := by
  simp [trimLeft, List.dropWhile_cons, h]

theorem trimLeft_cons_not_ws {c : Char} (s : Str) (h : isWs c = false) :
    trimLeft (c :: s) = c :: s := by
  simp [trimLeft, List.dropWhile_cons, h]

theorem trimLeft_head_not_ws {s t : Str} {c : Char}
    (h : trimLeft s = c :: t) : isWs c = false :=
  head_of_dropWhile h

theorem trimLeft_eq_self_of_head {s : Str}
    (h : ∀ c t, s = c :: t → isWs c = false) : trimLeft s = s := by
  cases s with
  | nil => rfl
  | cons c t => exact trimLeft_cons_not_ws t (h c t rfl)

theorem trimLeft_idem (s : Str) : trimLeft (trimLeft s) = trimLeft s :=
  dropWhile_self_idem isWs s

theorem trimRight_nil : trimRight ([] : Str) = [] := rfl

theorem trimRight_idem (s : Str) : trimRight (trimRight s) = trimRight s := by
  simp [trimRight, dropWhile_self_idem]

theorem trimRight_append_ws {c : Char} (s : Str) (h : isWs c = true) :
    trimRight (s ++ [c]) = trimRight s := by
  simp [trimRight, List.dropWhile_cons, h]

theorem trimRight_eq_nil_iff {s : Str} :
    trimRight s = [] ↔ ∀ c ∈ s, isWs c = true := by
  constructor
  · intro h c hc
    have : s.reverse.dropWhile isWs = [] := by
      have := congrArg List.reverse h
      simpa [trimRight] using this
    exact List.dropWhile_eq_nil_iff.mp this c (List.mem_reverse.mpr hc)
  · intro h
    have : s.reverse.dropWhile isWs = [] :=
      List.dropWhile_eq_nil_iff.mpr (fun c hc => h c (List.mem_reverse.mp hc))
    simp [trimRight, this]

theorem trimRight_cons (c : Char) (s : Str) :
    trimRight (c :: s) =
      if trimRight s = [] then (if isWs c then [] else [c]) else c :: trimRight s := by
  have hrw : (c :: s).reverse = s.reverse ++ [c] := by simp
  by_cases hnil : trimRight s = []
  · have hdw : s.reverse.dropWhile isWs = [] := by
      have := congrArg List.reverse hnil
      simpa [trimRight] using this
    by_cases hc : isWs c <;>
      simp [trimRight, hrw, List.dropWhile_append, hdw, List.dropWhile_cons, hc, hnil]
  · have hdw : ¬ s.reverse.dropWhile isWs = [] := by
      intro hc
      exact hnil (by simp [trimRight, hc])
    simp [trimRight, hrw, List.dropWhile_append, List.isEmpty_iff, hdw, hnil]

theorem trimRight_eq_self_of_getLast {s : Str}
    (h : ∀ c, s.getLast? = some c → isWs c = false) : trimRight s = s := by
  cases hr : s.reverse with
  | nil =>
    have hs : s = [] := by simpa using congrArg List.reverse hr
    rw [hs, trimRight_nil]
  | cons c t =>
    have hlast : s.getLast? = some c := by
      rw [← List.head?_reverse, hr]; rfl
    have hc := h c hlast
    have : s.reverse.dropWhile isWs = c :: t := by
      rw [hr, List.dropWhile_cons, hc]; simp
    simp [trimRight, this, ← hr]

theorem trimRight_sublist_head {s t : Str} {c : Char}
    (h : trimRight s = c :: t) : ∃ u, s = c :: u := by
  have hdw : s.reverse.dropWhile isWs = t.reverse ++ [c] := by
    have := congrArg List.reverse h
    simpa [trimRight] using this
  obtain ⟨pre, hpre⟩ := List.dropWhile_suffix (l := s.reverse) (p := isWs)
  rw [hdw] at hpre
  refine ⟨t ++ pre.reverse, ?_⟩
  have := congrArg List.reverse hpre
  simpa using this.symm

theorem trimStr_nil : trimStr ([] : Str) = [] := rfl

theorem trimStr_cons_ws {c : Char} (s : Str) (h : isWs c = true) :
    trimStr (c :: s) = trimStr s := by
  simp [trimStr, trimLeft_cons_ws _ h]

theorem trimStr_cons_not_ws {c : Char} (s : Str) (h : isWs c = false) :
    trimStr (c :: s) = trimRight (c :: s) := by
  simp [trimStr, trimLeft_cons_not_ws _ h]

theorem trimStr_append_ws {c : Char} (s : Str) (h : isWs c = true) :
    trimStr (s ++ [c]) = trimStr s := by
  induction s with
  | nil =>
    simp [trimStr, trimLeft, List.dropWhile_cons, h]
  | cons a rest ih =>
    by_cases ha : isWs a
    · rw [List.cons_append, trimStr_cons_ws _ ha, trimStr_cons_ws _ ha, ih]
    · rw [List.cons_append, trimStr_cons_not_ws _ (by simpa using ha),
        trimStr_cons_not_ws _ (by simpa using ha), ← List.cons_append,
        trimRight_append_ws _ h]

theorem trimStr_trimRight (s : Str) : trimStr (trimRight s) = trimStr s := by
  induction s with
  | nil => rfl
  | cons c rest ih =>
    rw [trimRight_cons]
    by_cases hnil : trimRight rest = []
    · rw [if_pos hnil]
      have hrest : trimStr rest = [] := by
        have := ih
        rw [hnil, trimStr_nil] at this
        exact this.symm
      by_cases hc : isWs c
      · rw [if_pos hc, trimStr_nil, trimStr_cons_ws _ hc, hrest]
      · rw [if_neg hc, trimStr_cons_not_ws _ (by simpa using hc),
          trimStr_cons_not_ws _ (by simpa using hc), trimRight_cons, trimRight_cons,
          trimRight_nil, hnil]
    · rw [if_neg hnil]
      by_cases hc : isWs c
      · rw [trimStr_cons_ws _ hc, trimStr_cons_ws _ hc, ih]
      · rw [trimStr_cons_not_ws _ (by simpa using hc),
          trimStr_cons_not_ws _ (by simpa using hc)]
        have h1 : trimRight (c :: trimRight rest) = c :: trimRight (trimRight rest) := by
          rw [trimRight_cons, if_neg (by rw [trimRight_idem]; exact hnil)]
        have h2 : trimRight (c :: rest) = c :: trimRight rest := by
          rw [trimRight_cons, if_neg hnil]
        rw [h1, h2, trimRight_idem]

theorem trimStr_eq_self {s : Str}
    (hhead : ∀ c t, s = c :: t → isWs c = false)
    (hlast : ∀ c, s.getLast? = some c → isWs c = false) : trimStr s = s := by
  rw [trimStr, trimLeft_eq_self_of_head hhead, trimRight_eq_self_of_getLast hlast]

theorem trimStr_head_not_ws {s t : Str} {c : Char}
    (h : trimStr s = c :: t) : isWs c = false := by
  rw [trimStr] at h
  obtain ⟨u, hu⟩ := trimRight_sublist_head h
  exact trimLeft_head_not_ws hu

theorem trimStr_getLast_not_ws {s : Str} {c : Char}
    (h : (trimStr s).getLast? = some c) : isWs c = false := by
  rw [trimStr, trimRight] at h
  rw [← List.head?_reverse, List.reverse_reverse] at h
  cases hdw : (trimLeft s).reverse.dropWhile isWs with
  | nil => rw [hdw] at h; simp at h
  | cons d t =>
    rw [hdw] at h
    have : d = c := by simpa using h
    rw [← this]
    exact head_of_dropWhile hdw

theorem trimStr_idem (s : Str) : trimStr (trimStr s) = trimStr s :=
  trimStr_eq_self (fun _ _ h => trimStr_head_not_ws h)
    (fun _ h => trimStr_getLast_not_ws h)

/-! ## Lemmas: tag de-duplication and normalization -/

/-- The shape `dedupeTags` guarantees: trimmed non-empty entries with
pairwise-distinct lowercase keys. -/
def CleanTags (l : List Str) : Prop :=
  (∀ x ∈ l, trimStr x = x ∧ x ≠ []) ∧ (l.map lowerStr).Nodup

instance : DecidablePred CleanTags := fun l => by
  unfold CleanTags; infer_instance

theorem dedupeTags_spec : ∀ (raw seen : List Str),
    (∀ x ∈ dedupeTags raw seen, trimStr x = x ∧ x ≠ [] ∧ lowerStr x ∉ seen) ∧
    ((dedupeTags raw seen).map lowerStr).Nodup := by
  intro raw
  induction raw with
  | nil => intro seen; simp [dedupeTags]
  | cons v rest ih =>
    intro seen
    by_cases h1 : trimStr v = []
    · simpa [dedupeTags, h1] using ih seen
    · by_cases h2 : lowerStr (trimStr v) ∈ seen
      · simpa [dedupeTags, h1, h2] using ih seen
      · have ihs := ih (lowerStr (trimStr v) :: seen)
        have hred : dedupeTags (v :: rest) seen =
            trimStr v :: dedupeTags rest (lowerStr (trimStr v) :: seen) := by
          simp [dedupeTags, h1, h2]
        rw [hred]
        constructor
        · intro x hx
          rcases List.mem_cons.mp hx with rfl | hx
          · exact ⟨trimStr_idem v, h1, h2⟩
          · obtain ⟨ha, hb, hc⟩ := ihs.1 x hx
            exact ⟨ha, hb, fun hmem => hc (List.mem_cons_of_mem _ hmem)⟩
        · rw [List.map_cons, List.nodup_cons]
          refine ⟨?_, ihs.2⟩
          intro hmem
          obtain ⟨x, hx, hkey⟩ := List.mem_map.mp hmem
          exact (ihs.1 x hx).2.2 (by rw [hkey]; exact List.mem_cons_self _ _)

theorem dedupeTags_of_clean : ∀ (l seen : List Str),
    (∀ x ∈ l, trimStr x = x ∧ x ≠ []) → (l.map lowerStr).Nodup →
    (∀ x ∈ l, lowerStr x ∉ seen) → dedupeTags l seen = l := by
  intro l
  induction l with
  | nil => intro seen _ _ _; rfl
  | cons v rest ih =>
    intro seen hcl hnd hns
    obtain ⟨hv, hvne⟩ := hcl v (List.mem_cons_self _ _)
    have h1 : ¬ trimStr v = [] := by rw [hv]; exact hvne
    have h2 : lowerStr (trimStr v) ∉ seen := by
      rw [hv]; exact hns v (List.mem_cons_self _ _)
    have hred : dedupeTags (v :: rest) seen =
        trimStr v :: dedupeTags rest (lowerStr (trimStr v) :: seen) := by
      simp [dedupeTags, h1, h2]
    have hnd' : (∀ x ∈ rest, ¬lowerStr x = lowerStr v) ∧
        (List.map lowerStr rest).Nodup := by simpa using hnd
    rw [hred, hv]
    congr 1
    refine ih _ (fun x hx => hcl x (List.mem_cons_of_mem _ hx)) hnd'.2 ?_
    intro x hx hmem
    rcases List.mem_cons.mp hmem with heq | hmem'
    · exact hnd'.1 x hx heq
    · exact hns x (List.mem_cons_of_mem _ hx) hmem'

theorem cleanTags_default : CleanTags [defaultTag] ∧ defaultTag ≠ [] := by
  constructor
  · constructor
    · intro x hx
      rcases List.mem_singleton.mp hx with rfl
      exact ⟨by decide, by decide⟩
    · simp
  · decide

theorem cleanTags_dedupe (raw : List Str) : CleanTags (dedupeTags raw []) := by
  obtain ⟨h1, h2⟩ := dedupeTags_spec raw []
  exact ⟨fun x hx => ⟨(h1 x hx).1, (h1 x hx).2.1⟩, h2⟩

theorem dedupeTags_self {l : List Str} (h : CleanTags l) : dedupeTags l [] = l :=
  dedupeTags_of_clean l [] h.1 h.2 (fun x _ => List.not_mem_nil _)

theorem normalizeTagsRaw_varr (l : List Str) (fid : Str) :
    normalizeTagsRaw (.varr l) fid = l := by
  simp [normalizeTagsRaw, isArr]

theorem normalizeTags_clean (v : JsVal) (fid : Str) :
    CleanTags (normalizeTags v fid) ∧ normalizeTags v fid ≠ [] := by
  rw [normalizeTags]
  by_cases h : dedupeTags (normalizeTagsRaw v fid) [] = []
  · simp only [h, if_pos rfl]
    exact ⟨cleanTags_default.1, by simp⟩
  · simp only [if_neg h]
    exact ⟨cleanTags_dedupe _, h⟩

theorem normalizeTags_of_clean {l : List Str} (fid : Str)
    (h : CleanTags l) (hne : l ≠ []) : normalizeTags (.varr l) fid = l := by
  rw [normalizeTags, normalizeTagsRaw_varr]
  simp only [dedupeTags_self h, if_neg hne]

theorem normalizeTaskTags_clean (tagsField : Option (List Str)) (tagField : Option Str) :
    CleanTags (normalizeTaskTags tagsField tagField) ∧
      normalizeTaskTags tagsField tagField ≠ [] := by
  rw [normalizeTaskTags]
  by_cases h : dedupeTags (normalizeTaskTagsRaw tagsField tagField) [] = []
  · simp only [h, if_pos rfl]
    exact ⟨cleanTags_default.1, by simp⟩
  · simp only [if_neg h]
    exact ⟨cleanTags_dedupe _, h⟩

theorem normalizeTaskTags_of_clean {l : List Str} (tagField : Option Str)
    (h : CleanTags l) (hne : l ≠ []) : normalizeTaskTags (some l) tagField = l := by
  rw [normalizeTaskTags]
  show (if dedupeTags l [] = [] then [defaultTag] else dedupeTags l []) = l
  simp only [dedupeTags_self h, if_neg hne]

/-- C5.  Tag normalization is idempotent: re-normalizing the output of the
server's `normalizeTags` (as a tag array) returns it unchanged, and likewise
re-normalizing the output of the UI's `normalizeTaskTags` (as the `tags`
field of a task) returns it unchanged — for every input and every fallback
task id / scalar `tag` field. -/
theorem c5_tag_normalization_idempotent :
    (∀ (ts : List Str) (fid fid2 : Str),
      normalizeTags (.varr (normalizeTags (.varr ts) fid)) fid2 =
        normalizeTags (.varr ts) fid) ∧
    (∀ (tagsField : Option (List Str)) (tagField tagField2 : Option Str),
      normalizeTaskTags (some (normalizeTaskTags tagsField tagField)) tagField2 =
        normalizeTaskTags tagsField tagField) := by
  constructor
  · intro ts fid fid2
    obtain ⟨hcl, hne⟩ := normalizeTags_clean (.varr ts) fid
    exact normalizeTags_of_clean fid2 hcl hne
  · intro tagsField tagField tagField2
    obtain ⟨hcl, hne⟩ := normalizeTaskTags_clean tagsField tagField
    exact normalizeTaskTags_of_clean tagField2 hcl hne

/-! ## Lemmas: normalized tasks -/

theorem natToStr_ne_nil (n : Nat) : natToStr n ≠ [] := by
  rw [natToStr, natToStrAux]
  split <;> simp

theorem intToStr_ne_nil (n : Int) : intToStr n ≠ [] := by
  rw [intToStr]
  split
  · simp
  · exact natToStr_ne_nil _

/-- The invariant every `normalizeTask` output that the system itself
produces satisfies. -/
def NormalTask (t : Task) : Prop :=
  trimStr t.title = t.title ∧ t.title ≠ [] ∧
  CleanTags t.tags ∧ t.tags ≠ [] ∧
  t.createdAt ≠ [] ∧ t.updatedAt ≠ []

instance : DecidablePred NormalTask := fun t => by
  unfold NormalTask; infer_instance

theorem normalizeTask_of_normal {t : Task} (h : NormalTask t) (d now : Str) :
    normalizeTask { taskToRaw t with description := .vstr d } now =
      { t with description := d } := by
  obtain ⟨ht1, ht2, hcl, htne, hc, hu⟩ := h
  simp [normalizeTask, taskToRaw, jsString, nullish, truthy, isArr,
    normalizeTags_of_clean _ hcl htne, ht1, ht2, hc, hu]

theorem normalizeTask_id_of_normal {t : Task} (h : NormalTask t) (now : Str) :
    normalizeTask (taskToRaw t) now = t := by
  have := normalizeTask_of_normal h t.description now
  simpa using this

theorem jsString_ne_nil_of_truthy {v : JsVal} (ht : v.truthy = true)
    (ha : v.isArr = false) : v.jsString ≠ [] := by
  cases v with
  | undef => simp [truthy] at ht
  | vnull => simp [truthy] at ht
  | vnan => simp [truthy] at ht
  | vstr s => simpa [truthy, jsString] using ht
  | vnum n => exact intToStr_ne_nil n
  | vbool b => cases b with
    | true => simp [jsString, str]
    | false => simp [truthy] at ht
  | varr l => simp [isArr] at ha

/-- C9 counterexample: a raw task whose `createdAt` is the JSON array `[]`
(as a hand-edited file `createdAt: []` produces) is truthy, so
`normalizeTask` keeps it, and its string image is empty — the output's
`createdAt` is not a non-empty string even though `now` is non-empty. -/
theorem c9_counterexample :
    (normalizeTask { id := .vstr (str "x"), createdAt := .varr [] } (str "T")).createdAt = []
      ∧ str "T" ≠ [] := by
  exact ⟨rfl, by decide⟩

/-- C9 (amended).  Every `normalizeTask` output has a trimmed non-empty
title (defaulting to `"Untitled"`), a non-empty list of trimmed, non-empty,
case-insensitively distinct tags, and `order` defaulting to `0` when the
raw order is not a finite number; `createdAt`/`updatedAt` are non-empty
provided the corresponding raw values are not JSON arrays (which only
hand-edited task files can produce — every system write path passes strings
or nothing). -/
theorem c9_normalize_task_invariant (raw : RawTask) (now : Str)
    (hnow : now ≠ []) (hca : raw.createdAt.isArr = false)
    (hua : raw.updatedAt.isArr = false) :
    NormalTask (normalizeTask raw now) ∧
    (raw.title = .undef → (normalizeTask raw now).title = str "Untitled") ∧
    ((∀ n : Int, raw.order ≠ .vnum n) → (normalizeTask raw now).order = 0) := by
  refine ⟨⟨?_, ?_, ?_, ?_, ?_, ?_⟩, ?_, ?_⟩
  · simp only [normalizeTask]
    by_cases h : trimStr ((raw.title.nullish (.vstr (str "Untitled"))).jsString) = []
    · simp only [h, if_pos rfl]; decide
    · simp only [if_neg h]; exact trimStr_idem _
  · simp only [normalizeTask]
    by_cases h : trimStr ((raw.title.nullish (.vstr (str "Untitled"))).jsString) = []
    · simp only [h, if_pos rfl]; decide
    · simp only [if_neg h]; exact h
  · simp only [normalizeTask]
    exact (normalizeTags_clean _ _).1
  · simp only [normalizeTask]
    exact (normalizeTags_clean _ _).2
  · simp only [normalizeTask]
    by_cases h : raw.createdAt.truthy
    · simp only [h, if_pos rfl]
      exact jsString_ne_nil_of_truthy h hca
    · simp only [if_neg h]
      exact hnow
  · simp only [normalizeTask]
    by_cases h : raw.updatedAt.truthy
    · simp only [h, if_pos rfl]
      exact jsString_ne_nil_of_truthy h hua
    · simp only [if_neg h]
      exact hnow
  · intro h
    simp only [normalizeTask, h, nullish, jsString]
    decide
  · intro h
    cases ho : raw.order with
    | vnum n => exact absurd ho (h n)
    | undef => simp [normalizeTask, ho]
    | vnull => simp [normalizeTask, ho]
    | vstr s => simp [normalizeTask, ho]
    | vbool b => simp [normalizeTask, ho]
    | vnan => simp [normalizeTask, ho]
    | varr l => simp [normalizeTask, ho]

/-- C9 witness: the invariant at a concrete raw task. -/
theorem c9_witness :
    NormalTask (normalizeTask { id := .vstr (str "x"), title := .vstr (str " Hi ") }
        (str "T")) ∧
      (normalizeTask { id := .vstr (str "x") } (str "T")).title = str "Untitled" := by
  constructor
  · exact (c9_normalize_task_invariant _ _ (by decide) (by decide) (by decide)).1
  · exact (c9_normalize_task_invariant { id := .vstr (str "x") } _ (by decide)
      (by decide) (by decide)).2.1 rfl

/-! ## Lemmas: `deleteTagEverywhere` -/

theorem cleanTags_filter (p : Str → Bool) {l : List Str} (h : CleanTags l) :
    CleanTags (l.filter p) := by
  refine ⟨fun x hx => h.1 x (List.mem_of_mem_filter hx), ?_⟩
  exact ((List.filter_sublist l).map lowerStr).nodup h.2

/-- The tags of the task `deleteTagEverywhere` writes for one record. -/
theorem deleteTagStep_fst_tags (target now : Str) (t : Task) :
    (deleteTagStep target now t).1.tags =
      (if (t.tags.filter (fun tg => lowerStr tg ≠ lowerStr target)).length = t.tags.length
       then t.tags
       else normalizeTags
         (.varr (t.tags.filter (fun tg => lowerStr tg ≠ lowerStr target))) t.id) := by
  simp only [deleteTagStep]
  by_cases h : (t.tags.filter (fun tg => lowerStr tg ≠ lowerStr target)).length = t.tags.length
  · rw [if_pos h, if_pos h]
  · rw [if_neg h, if_neg h]
    simp only [normalizeTask, taskToRaw, nullish, jsString]

theorem deleteTagStep_tags_ne_nil (target now : Str) {t : Task}
    (ht : t.tags ≠ []) : (deleteTagStep target now t).1.tags ≠ [] := by
  rw [deleteTagStep_fst_tags]
  split
  · exact ht
  · exact (normalizeTags_clean _ _).2

theorem deleteTagStep_all_match (target now : Str) {t : Task}
    (ht : t.tags ≠ [])
    (hall : ∀ s ∈ t.tags, lowerStr s = lowerStr target) :
    (deleteTagStep target now t).1.tags = [defaultTag] := by
  have hfil : t.tags.filter (fun tg => lowerStr tg ≠ lowerStr target) = [] := by
    rw [List.filter_eq_nil_iff]
    intro a ha
    simp [hall a ha]
  rw [deleteTagStep_fst_tags, hfil]
  have hlen : ¬ (0 = t.tags.length) := by
    cases hq : t.tags with
    | nil => exact absurd hq ht
    | cons a l => simp [hq]
  simp only [List.length_nil]
  rw [if_neg hlen]
  rw [normalizeTags, normalizeTagsRaw_varr]
  rfl

/-- C3.  Default-tag fallback: after `deleteTagEverywhere(tag)` (with a
non-empty trimmed tag, which is what reaches the loop), every task all of
whose tags case-insensitively equal the deleted tag ends up with tag set
exactly `["General"]`; no task in the resulting store has an empty tag set;
and the UI's `removeTag` never produces an empty tag set either. -/
theorem c3_delete_tag_default_fallback (state : List Task) (log : List LogEntry)
    (bodyTag : JsVal) (now : Str)
    (hN : ∀ t ∈ state, t.tags ≠ [])
    (hne : trimStr (bodyTag.nullish (.vstr [])).jsString ≠ []) :
    (handleDeleteTagEverywhere state log bodyTag now).state =
      (state.map (deleteTagStep (trimStr (bodyTag.nullish (.vstr [])).jsString) now)).map
        Prod.fst ∧
    (∀ t ∈ state,
      (∀ s ∈ t.tags,
        lowerStr s = lowerStr (trimStr (bodyTag.nullish (.vstr [])).jsString)) →
      (deleteTagStep (trimStr (bodyTag.nullish (.vstr [])).jsString) now t).1.tags =
        [defaultTag]) ∧
    (∀ t' ∈ (handleDeleteTagEverywhere state log bodyTag now).state, t'.tags ≠ []) ∧
    (∀ (prev : List Str) (tagToRemove : Str), uiRemoveTag prev tagToRemove ≠ []) := by
  refine ⟨?_, ?_, ?_, ?_⟩
  · simp [handleDeleteTagEverywhere, hne]
  · intro t ht hall
    exact deleteTagStep_all_match _ now (hN t ht) hall
  · intro t' ht'
    have hst : (handleDeleteTagEverywhere state log bodyTag now).state =
        (state.map (deleteTagStep (trimStr (bodyTag.nullish (.vstr [])).jsString) now)).map
          Prod.fst := by
      simp [handleDeleteTagEverywhere, hne]
    rw [hst, List.map_map] at ht'
    obtain ⟨t, ht, rfl⟩ := List.mem_map.mp ht'
    exact deleteTagStep_tags_ne_nil _ now (hN t ht)
  · intro prev tagToRemove
    rw [uiRemoveTag]
    split
    · simp
    · assumption

/-- A concrete task used by witnesses: tagged only `"WORK"`. -/
def sampleWorkTask : Task :=
  ⟨str "a", str "T", [], [str "WORK"], false, 0, str "C", str "U"⟩

/-- C3 witness: deleting `" work "` from a store of one task tagged only
`"WORK"` leaves that task with tag set exactly `["General"]`. -/
theorem c3_witness :
    (∀ t ∈ [sampleWorkTask], t.tags ≠ []) ∧
    trimStr ((JsVal.vstr (str " work ")).nullish (.vstr [])).jsString ≠ [] ∧
    (deleteTagStep (trimStr ((JsVal.vstr (str " work ")).nullish (.vstr [])).jsString)
        (str "N") sampleWorkTask).1.tags = [defaultTag] := by
  refine ⟨by decide, by decide, ?_⟩
  exact (c3_delete_tag_default_fallback [sampleWorkTask] [] (.vstr (str " work "))
    (str "N") (by decide) (by decide)).2.1 _ (List.mem_singleton.mpr rfl) (by decide)

/-- `String(body.tag ?? "").trim()`: the tag `handleDeleteTagEverywhere`
actually deletes. -/
def tagTarget (bodyTag : JsVal) : Str :=
  trimStr (bodyTag.nullish (.vstr [])).jsString

/-- The per-task logbook entries the `deleteTagEverywhere` loop emits. -/
def stepEntries (target now : Str) (state : List Task) : List LogEntry :=
  (state.map (fun t => (deleteTagStep target now t).2)).flatten

/-- The number of store tasks carrying the tag case-insensitively. -/
def matchCount (target : Str) (state : List Task) : Nat :=
  (state.filter (fun t => decide (∃ s ∈ t.tags, lowerStr s = lowerStr target))).length

theorem filter_tags_length_iff (target : Str) (t : Task) :
    (t.tags.filter (fun tg => lowerStr tg ≠ lowerStr target)).length = t.tags.length
      ↔ ∀ s ∈ t.tags, ¬ lowerStr s = lowerStr target := by
  rw [List.filter_length_eq_length]
  simp

theorem deleteTagStep_snd_spec (target now : Str) (t : Task) :
    (deleteTagStep target now t).2.length =
      (if ∃ s ∈ t.tags, lowerStr s = lowerStr target then 1 else 0) ∧
    ∀ e ∈ (deleteTagStep target now t).2, e.type = str "tag_removed_from_task" := by
  simp only [deleteTagStep]
  by_cases h : (t.tags.filter (fun tg => lowerStr tg ≠ lowerStr target)).length = t.tags.length
  · rw [if_pos h]
    have : ¬ ∃ s ∈ t.tags, lowerStr s = lowerStr target := by
      push_neg
      exact (filter_tags_length_iff target t).mp h
    simp [this]
  · rw [if_neg h]
    have : ∃ s ∈ t.tags, lowerStr s = lowerStr target := by
      by_contra hc
      push_neg at hc
      exact h ((filter_tags_length_iff target t).mpr hc)
    simp [this]

theorem stepEntries_length (target now : Str) : ∀ (state : List Task),
    (stepEntries target now state).length = matchCount target state := by
  intro state
  induction state with
  | nil => rfl
  | cons t rest ih =>
    rw [stepEntries, List.map_cons, List.flatten_cons, List.length_append]
    rw [stepEntries] at ih
    rw [ih, matchCount, matchCount, List.filter_cons]
    by_cases h : ∃ s ∈ t.tags, lowerStr s = lowerStr target
    · rw [(deleteTagStep_snd_spec target now t).1, if_pos h]
      simp [h]
      omega
    · rw [(deleteTagStep_snd_spec target now t).1, if_neg h]
      simp [h]

theorem stepEntries_types (target now : Str) (state : List Task) :
    ∀ e ∈ stepEntries target now state, e.type = str "tag_removed_from_task" := by
  intro e he
  rw [stepEntries] at he
  obtain ⟨l, hl, hel⟩ := List.mem_flatten.mp he
  obtain ⟨t, _, rfl⟩ := List.mem_map.mp hl
  exact (deleteTagStep_snd_spec target now t).2 e hel

theorem deleteTagStep_removes (target now : Str) {t : Task}
    (hcl : CleanTags t.tags)
    (hgen : lowerStr target ≠ lowerStr defaultTag) :
    ∀ s ∈ (deleteTagStep target now t).1.tags, ¬ lowerStr s = lowerStr target := by
  by_cases h : (t.tags.filter (fun tg => lowerStr tg ≠ lowerStr target)).length = t.tags.length
  · rw [deleteTagStep_fst_tags, if_pos h]
    exact (filter_tags_length_iff target t).mp h
  · rw [deleteTagStep_fst_tags, if_neg h]
    have hclf : CleanTags (t.tags.filter (fun tg => lowerStr tg ≠ lowerStr target)) :=
      cleanTags_filter _ hcl
    rw [normalizeTags, normalizeTagsRaw_varr]
    simp only [dedupeTags_self hclf]
    by_cases hz : t.tags.filter (fun tg => lowerStr tg ≠ lowerStr target) = []
    · rw [hz]
      simp only [if_pos rfl]
      intro s hs
      rcases List.mem_singleton.mp hs with rfl
      exact fun hq => hgen hq.symm
    · rw [if_neg hz]
      intro s hs
      simpa using List.of_mem_filter hs

/-- C8 (amended).  `deleteTagEverywhere(tag)` (non-empty trimmed tag, clean
store tags): the loop appends exactly one `tag_removed_from_task` entry per
task carrying the tag case-insensitively (`matchCount`), plus exactly one
`tag_deleted_everywhere` summary entry with `changedCount = matchCount`
when the count is positive; when it is `0` no entries are appended.  The
tag is removed from every matching task, except that a task whose tag set
becomes empty falls back to `["General"]` — so when the deleted tag is
itself `"General"` (case-insensitively) it can survive; for any other tag
no trace of it remains. -/
theorem c8_delete_tag_event_counts (state : List Task) (log : List LogEntry)
    (bodyTag : JsVal) (now : Str)
    (hne : tagTarget bodyTag ≠ [])
    (hN : ∀ t ∈ state, CleanTags t.tags) :
    (stepEntries (tagTarget bodyTag) now state).length =
      matchCount (tagTarget bodyTag) state ∧
    (∀ e ∈ stepEntries (tagTarget bodyTag) now state,
      e.type = str "tag_removed_from_task") ∧
    (handleDeleteTagEverywhere state log bodyTag now).log =
      log ++ stepEntries (tagTarget bodyTag) now state ++
        (if 0 < matchCount (tagTarget bodyTag) state then
          [⟨str "tag_deleted_everywhere", now,
            .tagEverywhere (tagTarget bodyTag) (matchCount (tagTarget bodyTag) state)⟩]
         else []) ∧
    (matchCount (tagTarget bodyTag) state = 0 →
      (handleDeleteTagEverywhere state log bodyTag now).log = log) ∧
    (lowerStr (tagTarget bodyTag) ≠ lowerStr defaultTag →
      ∀ t ∈ state, ∀ s ∈ (deleteTagStep (tagTarget bodyTag) now t).1.tags,
        ¬ lowerStr s = lowerStr (tagTarget bodyTag)) := by
  have hne' : ¬ trimStr ((bodyTag.nullish (.vstr [])).jsString) = [] := hne
  have hlog : (handleDeleteTagEverywhere state log bodyTag now).log =
      log ++ stepEntries (tagTarget bodyTag) now state ++
        (if 0 < (stepEntries (tagTarget bodyTag) now state).length then
          [⟨str "tag_deleted_everywhere", now,
            .tagEverywhere (tagTarget bodyTag)
              ((stepEntries (tagTarget bodyTag) now state).length)⟩]
         else []) := by
    simp only [handleDeleteTagEverywhere]
    rw [if_neg hne']
    rw [stepEntries, tagTarget, List.map_map, List.map_map]
    rfl
  refine ⟨stepEntries_length _ now state, stepEntries_types _ now state, ?_, ?_, ?_⟩
  · rw [hlog, stepEntries_length]
  · intro h0
    have hz : stepEntries (tagTarget bodyTag) now state = [] :=
      List.length_eq_zero.mp (by rw [stepEntries_length]; exact h0)
    rw [hlog, hz]
    simp
  · intro hgen t ht
    exact deleteTagStep_removes _ now (hN t ht) hgen

/-- A task tagged only `"General"`. -/
def sampleGeneralTask : Task :=
  ⟨str "g", str "G", [], [str "General"], false, 0, str "C", str "U"⟩

/-- C8 counterexample to the claim as stated: `deleteTagEverywhere("General")`
on a store with one task tagged exactly `["General"]` counts that task as
changed (k = 1), but does not remove the tag — the empty-set fallback puts
`"General"` right back, so the resulting task still carries the deleted
tag. -/
theorem c8_counterexample :
    matchCount (tagTarget (.vstr (str "General"))) [sampleGeneralTask] = 1 ∧
    (handleDeleteTagEverywhere [sampleGeneralTask] [] (.vstr (str "General"))
        (str "N")).state.map Task.tags = [[str "General"]] := by
  constructor
  · decide
  · rfl

/-- Two tasks carrying `"Work"` (the spec's worked example). -/
def workTask1 : Task :=
  ⟨str "w1", str "A", [], [str "Work", str "Play"], false, 0, str "C", str "U"⟩

def workTask2 : Task :=
  ⟨str "w2", str "B", [], [str "Work"], true, 1, str "C", str "U"⟩

/-- C8 witness: deleting `"Work"` from a two-task store carrying it appends
exactly 2 per-task events plus 1 summary event with `changedCount = 2`. -/
theorem c8_witness :
    tagTarget (.vstr (str "Work")) ≠ [] ∧
    (∀ t ∈ [workTask1, workTask2], CleanTags t.tags) ∧
    (stepEntries (tagTarget (.vstr (str "Work"))) (str "N") [workTask1, workTask2]).length
      = 2 ∧
    (handleDeleteTagEverywhere [workTask1, workTask2] [] (.vstr (str "Work"))
        (str "N")).log =
      stepEntries (tagTarget (.vstr (str "Work"))) (str "N") [workTask1, workTask2] ++
        [⟨str "tag_deleted_everywhere", str "N",
          .tagEverywhere (tagTarget (.vstr (str "Work"))) 2⟩] := by
  have h := c8_delete_tag_event_counts [workTask1, workTask2] [] (.vstr (str "Work"))
    (str "N") (by decide) (by decide)
  have hc : matchCount (tagTarget (.vstr (str "Work"))) [workTask1, workTask2] = 2 := by
    decide
  refine ⟨by decide, by decide, ?_, ?_⟩
  · rw [h.1, hc]
  · rw [h.2.2.1, hc]
    simp

/-! ## Lemmas: `handleUpdateTask` (done-toggle events, scalar tags) -/

theorem normalizeTask_done (raw : RawTask) (now : Str) :
    (normalizeTask raw now).done = raw.done.truthy := rfl

theorem truthy_vbool (b : Bool) : (JsVal.vbool b).truthy = b := rfl

/-- C7.  For an update on an existing task: a title that trims empty is a
400 and appends nothing; otherwise exactly one logbook entry is appended
iff `done` is present in the body and its coerced value differs from the
stored one — of type `"task_completed"` when the new value is true and
`"task_reopened"` when it is false; if `done` is absent or unchanged, the
logbook is untouched. -/
theorem c7_done_toggle_event (state : List Task) (log : List LogEntry)
    (taskId : Str) (body : UpdateBody) (now : Str) {rec0 : Task}
    (hfind : state.find? (fun t => t.id = taskId) = some rec0) :
    ((match body.title with
      | none => rec0.title
      | some v => trimStr v.jsString) = [] →
      (handleUpdateTask state log taskId body now).log = log) ∧
    ((match body.title with
      | none => rec0.title
      | some v => trimStr v.jsString) ≠ [] →
      (body.done = none → (handleUpdateTask state log taskId body now).log = log) ∧
      (∀ v, body.done = some v → v.truthy = rec0.done →
        (handleUpdateTask state log taskId body now).log = log) ∧
      (∀ v, body.done = some v → v.truthy ≠ rec0.done →
        ∃ e, (handleUpdateTask state log taskId body now).log = log ++ [e] ∧
          e.type = (if v.truthy then str "task_completed" else str "task_reopened"))) := by
  constructor
  · intro h0
    simp only [handleUpdateTask, hfind]
    rw [if_pos h0]
  · intro hne
    simp only [handleUpdateTask, hfind]
    rw [if_neg hne]
    refine ⟨?_, ?_, ?_⟩
    · intro hd
      simp [hd]
    · intro v hd heq
      simp [hd, normalizeTask_done, truthy_vbool, heq]
    · intro v hd hne2
      have hcond : (v.truthy != rec0.done) = true := by
        cases hv : v.truthy <;> cases hr : rec0.done <;> simp_all
      simp [hd, normalizeTask_done, truthy_vbool, hcond]

/-- C7 witness: completing the (not-done) sample task appends exactly one
`"task_completed"` entry. -/
theorem c7_witness :
    [sampleWorkTask].find? (fun t => t.id = str "a") = some sampleWorkTask ∧
    ∃ e, (handleUpdateTask [sampleWorkTask] [] (str "a")
        { done := some (.vbool true) } (str "N")).log = [] ++ [e] ∧
      e.type = (if (JsVal.vbool true).truthy then str "task_completed"
                else str "task_reopened") := by
  have hfind : [sampleWorkTask].find? (fun t => t.id = str "a") = some sampleWorkTask := by
    decide
  refine ⟨hfind, ?_⟩
  exact ((c7_done_toggle_event [sampleWorkTask] [] (str "a")
    { done := some (.vbool true) } (str "N") hfind).2 (by decide)).2.2 _ rfl (by decide)

/-- The final fallback stage shared by both tag normalizers. -/
def normalizeTagList (l : List Str) : List Str :=
  let d := dedupeTags l []
  if d = [] then [defaultTag] else d

theorem normalizeTask_tags (raw : RawTask) (now : Str) :
    (normalizeTask raw now).tags =
      normalizeTags (raw.tags.nullish raw.tag) raw.id.jsString := rfl

theorem normalizeTagsRaw_vstr (s fid : Str) :
    normalizeTagsRaw (.vstr s) fid = (if ',' ∈ s then splitOnChar ',' s else [s]) := by
  rw [normalizeTagsRaw, if_neg (fun h => nomatch h), if_neg (fun h => nomatch h)]
  · rfl
  · exact fun l hl => nomatch hl

theorem normalizeTags_vstr (s : Str) (fid : Str) :
    normalizeTags (.vstr s) fid =
      (if ',' ∈ s then normalizeTagList (splitOnChar ',' s) else normalizeTagList [s]) := by
  rw [normalizeTags, normalizeTagsRaw_vstr]
  by_cases h : ',' ∈ s <;> simp [h, normalizeTagList]

theorem dedupeTags_singleton (s : Str) :
    dedupeTags [s] [] = (if trimStr s = [] then [] else [trimStr s]) := by
  by_cases h : trimStr s = [] <;> simp [dedupeTags, h]

theorem normalizeTagList_singleton_length (s : Str) :
    (normalizeTagList [s]).length = 1 := by
  rw [normalizeTagList, dedupeTags_singleton]
  by_cases h : trimStr s = [] <;> simp [h]

/-- C10.  When an update's `tags` value is a (non-null, non-array) string,
the saved task's tags are the normalization of: the comma-split pieces when
the string contains a comma, else the one-element list holding the string —
and in the comma-free case the resulting tag list has exactly one
element. -/
theorem c10_scalar_tags_split (state : List Task) (log : List LogEntry)
    (taskId : Str) (body : UpdateBody) (now : Str) {rec0 : Task} {s : Str}
    (hfind : state.find? (fun t => t.id = taskId) = some rec0)
    (hne : (match body.title with
            | none => rec0.title
            | some v => trimStr v.jsString) ≠ [])
    (htags : body.tags = some (.vstr s)) :
    ∃ saved, (handleUpdateTask state log taskId body now).response = .ok saved ∧
      saved.tags = normalizeTags (.vstr s) rec0.id ∧
      (',' ∈ s → saved.tags = normalizeTagList (splitOnChar ',' s)) ∧
      (',' ∉ s → saved.tags = normalizeTagList [s] ∧ saved.tags.length = 1) := by
  simp only [handleUpdateTask, hfind]
  rw [if_neg hne]
  refine ⟨_, rfl, ?_⟩
  have htg : (normalizeTask
      { taskToRaw rec0 with
        done := match body.done with
                | some v => .vbool v.truthy
                | none => (taskToRaw rec0).done
        description := match body.description with
                       | some v => .vstr (v.nullish (.vstr [])).jsString
                       | none => (taskToRaw rec0).description
        tags := match body.tags with
                | some v => v
                | none => match body.tag with
                          | some tv => .varr [tagElemStr tv]
                          | none => (taskToRaw rec0).tags
        order := match body.order with
                 | some v => jsToNumber v
                 | none => (taskToRaw rec0).order
        title := .vstr (match body.title with
                        | none => rec0.title
                        | some v => trimStr v.jsString)
        updatedAt := .vstr now } now).tags = normalizeTags (.vstr s) rec0.id := by
    rw [normalizeTask_tags]
    simp [htags, taskToRaw, nullish, jsString]
  refine ⟨htg, ?_, ?_⟩
  · intro hc
    rw [htg, normalizeTags_vstr, if_pos hc]
  · intro hc
    rw [htg, normalizeTags_vstr, if_neg hc]
    exact ⟨rfl, normalizeTagList_singleton_length s⟩

/-- C10 witness: updating with `tags: "a,b"` yields `["a", "b"]`; with
`tags: "c"` a single tag `["c"]`. -/
theorem c10_witness :
    (∃ saved, (handleUpdateTask [sampleWorkTask] [] (str "a")
        { tags := some (.vstr (str "a,b")) } (str "N")).response = .ok saved ∧
      saved.tags = [str "a", str "b"]) ∧
    (∃ saved, (handleUpdateTask [sampleWorkTask] [] (str "a")
        { tags := some (.vstr (str "c")) } (str "N")).response = .ok saved ∧
      saved.tags = [str "c"] ∧ saved.tags.length = 1) := by
  have hfind : [sampleWorkTask].find? (fun t => t.id = str "a") = some sampleWorkTask := by
    decide
  constructor
  · obtain ⟨saved, hresp, -, hcomma, -⟩ := c10_scalar_tags_split [sampleWorkTask] []
      (str "a") { tags := some (.vstr (str "a,b")) } (str "N") hfind (by decide) rfl
    refine ⟨saved, hresp, ?_⟩
    rw [hcomma (by decide)]
    decide
  · obtain ⟨saved, hresp, -, -, hplain⟩ := c10_scalar_tags_split [sampleWorkTask] []
      (str "a") { tags := some (.vstr (str "c")) } (str "N") hfind (by decide) rfl
    obtain ⟨h1, h2⟩ := hplain (by decide)
    refine ⟨saved, hresp, ?_, h2⟩
    rw [h1]
    decide

/-! ## Lemmas: `handleCreateTask` -/

theorem normalizeTask_id (raw : RawTask) (now : Str) :
    (normalizeTask raw now).id = raw.id.jsString := rfl

/-- C6.  `POST /api/tasks`: a title that trims to empty is a 400 with
message `"Title is required."` and the store is unchanged (no file is
written); otherwise the created task carries the freshly generated id,
`order` equal to the current store size, `createdAt = updatedAt = now`,
`done = false` when `done` is absent from the body, and tags `["General"]`
when both `tags` (as an array) and `tag` are absent. -/
theorem c6_create_task (state : List Task) (body : CreateBody) (newId now : Str)
    (hnow : now ≠ []) :
    (trimStr ((body.title.nullish (.vstr [])).jsString) = [] →
      handleCreateTask state body newId now =
        (.error (.badRequest (str "Title is required.")), state)) ∧
    (trimStr ((body.title.nullish (.vstr [])).jsString) ≠ [] →
      ∃ task, handleCreateTask state body newId now = (.ok task, state ++ [task]) ∧
        task.id = newId ∧
        task.order = (state.length : Int) ∧
        task.createdAt = now ∧
        task.updatedAt = now ∧
        (body.done = .undef → task.done = false) ∧
        (body.tags.isArr = false → body.tag = none → task.tags = [defaultTag])) := by
  constructor
  · intro h0
    rw [handleCreateTask, if_pos h0]
  · intro hne
    rw [handleCreateTask, if_neg hne]
    refine ⟨_, rfl, rfl, rfl, ?_, ?_, ?_, ?_⟩
    · simp [normalizeTask, truthy, jsString, nullish, hnow]
    · simp [normalizeTask, truthy, jsString, nullish, hnow]
    · intro hdone
      rw [normalizeTask_done]
      simp [hdone, truthy]
    · intro hiarr htag
      rw [normalizeTask_tags]
      simp only [hiarr, htag, Bool.false_eq_true, if_false]
      show normalizeTags ((JsVal.varr [defaultTag]).nullish .undef) _ = [defaultTag]
      rw [show (JsVal.varr [defaultTag]).nullish .undef = .varr [defaultTag] from rfl]
      exact normalizeTags_of_clean _ cleanTags_default.1 (by simp)

/-- C6 witness: creating `"Buy milk"` on a one-task store yields order 1,
`done = false`, tags `["General"]`; an all-whitespace title is a 400. -/
theorem c6_witness :
    (str "N" ≠ []) ∧
    (∃ task, handleCreateTask [sampleWorkTask] { title := .vstr (str "Buy milk") }
        (str "id9") (str "N") = (.ok task, [sampleWorkTask] ++ [task]) ∧
      task.id = str "id9" ∧ task.order = (1 : Int) ∧ task.createdAt = str "N" ∧
      task.updatedAt = str "N" ∧ task.done = false ∧ task.tags = [defaultTag]) ∧
    handleCreateTask [] { title := .vstr (str "  ") } (str "id9") (str "N") =
      (.error (.badRequest (str "Title is required.")), []) := by
  refine ⟨by decide, ?_, ?_⟩
  · obtain ⟨task, heq, hid, hord, hca, hua, hdone, htags⟩ :=
      (c6_create_task [sampleWorkTask] { title := .vstr (str "Buy milk") }
        (str "id9") (str "N") (by decide)).2 (by decide)
    exact ⟨task, heq, hid, hord, hca, hua, hdone rfl, htags rfl rfl⟩
  · exact (c6_create_task [] { title := .vstr (str "  ") } (str "id9") (str "N")
      (by decide)).1 (by decide)

/-! ## Lemmas: `handleReorderTasks` -/

theorem reorderPick_spec (known : List Str) : ∀ (ids seen : List Str),
    (∀ x ∈ (reorderPick known ids seen).1, x ∈ known ∧ x ∉ seen) ∧
    (reorderPick known ids seen).1.Nodup ∧
    (∀ x, x ∈ (reorderPick known ids seen).2 ↔
      x ∈ (reorderPick known ids seen).1 ∨ x ∈ seen) := by
  intro ids
  induction ids with
  | nil => intro seen; simp [reorderPick]
  | cons id rest ih =>
    intro seen
    by_cases h : id ∈ known ∧ id ∉ seen
    · have hred : reorderPick known (id :: rest) seen =
          (id :: (reorderPick known rest (id :: seen)).1,
           (reorderPick known rest (id :: seen)).2) := by
        rw [reorderPick, if_pos h]
      obtain ⟨ih1, ih2, ih3⟩ := ih (id :: seen)
      rw [hred]
      refine ⟨?_, ?_, ?_⟩
      · intro x hx
        rcases List.mem_cons.mp hx with rfl | hx
        · exact h
        · have := ih1 x hx
          exact ⟨this.1, fun hm => this.2 (List.mem_cons_of_mem _ hm)⟩
      · rw [List.nodup_cons]
        exact ⟨fun hm => (ih1 id hm).2 (List.mem_cons_self _ _), ih2⟩
      · intro x
        rw [ih3 x]
        constructor
        · rintro (hx | hx)
          · exact Or.inl (List.mem_cons_of_mem _ hx)
          · rcases List.mem_cons.mp hx with rfl | hx
            · exact Or.inl (List.mem_cons_self _ _)
            · exact Or.inr hx
        · rintro (hx | hx)
          · rcases List.mem_cons.mp hx with rfl | hx
            · exact Or.inr (List.mem_cons_self _ _)
            · exact Or.inl hx
          · exact Or.inr (List.mem_cons_of_mem _ hx)
    · have hred : reorderPick known (id :: rest) seen = reorderPick known rest seen := by
        rw [reorderPick, if_neg h]
      rw [hred]
      exact ih seen

theorem normalizeTask_reorder {t : Task} (h : NormalTask t) (k : Int) (now : Str) :
    normalizeTask { taskToRaw t with order := .vnum k, updatedAt := .vstr now } now =
      { t with order := k, updatedAt := now } := by
  obtain ⟨ht1, ht2, hcl, htne, hc, _⟩ := h
  by_cases hn : now = []
  · simp [normalizeTask, taskToRaw, jsString, nullish, truthy, isArr,
      normalizeTags_of_clean _ hcl htne, ht1, ht2, hc, hn]
  · simp [normalizeTask, taskToRaw, jsString, nullish, truthy, isArr,
      normalizeTags_of_clean _ hcl htne, ht1, ht2, hc, hn]

theorem reorderWrite_spec (now : Str) (hnow : now ≠ []) :
    ∀ (ids : List Str) (byId : Str → Option Task) (idx : Nat),
    (∀ x ∈ ids, ∃ t, byId x = some t ∧ t.id = x ∧ NormalTask t) →
    (reorderWrite byId now ids idx).map Task.id = ids ∧
    (reorderWrite byId now ids idx).map Task.order =
      (List.range' idx ids.length).map Int.ofNat := by
  intro ids
  induction ids with
  | nil => intro byId idx _; simp [reorderWrite]
  | cons x rest ih =>
    intro byId idx hby
    obtain ⟨t, hbt, htid, htN⟩ := hby x (List.mem_cons_self _ _)
    have hred : reorderWrite byId now (x :: rest) idx =
        normalizeTask { taskToRaw t with
            order := .vnum (idx : Int)
            updatedAt := .vstr now } now ::
          reorderWrite (fun i => if i = x then
              some (normalizeTask { taskToRaw t with
                order := .vnum (idx : Int)
                updatedAt := .vstr now } now) else byId i) now rest (idx + 1) := by
      rw [reorderWrite, hbt]
    rw [normalizeTask_reorder htN] at hred
    have hsavedN : NormalTask { t with order := (idx : Int), updatedAt := now } := by
      obtain ⟨a, b, c, d, e, _⟩ := htN
      exact ⟨a, b, c, d, e, hnow⟩
    have hIH := ih
      (fun i => if i = x then some { t with order := (idx : Int), updatedAt := now }
                else byId i) (idx + 1)
      (by
        intro y hy
        by_cases hxy : y = x
        · subst hxy
          exact ⟨{ t with order := (idx : Int), updatedAt := now }, by simp, htid, hsavedN⟩
        · refine Exists.imp ?_ (hby y (List.mem_cons_of_mem _ hy))
          intro t' ht'
          simpa [hxy] using ht')
    rw [hred, List.map_cons, List.map_cons, hIH.1, hIH.2, List.length_cons,
      List.range'_succ, List.map_cons]
    constructor <;> simp [htid]

/-- C2.  `reorder(taskIds)` on a store with distinct ids: the resulting
record list carries exactly the same id set as before (a permutation);
its id sequence is the de-duplicated, known-id-filtered input followed by
the remaining known ids in their prior store order (duplicates and unknown
ids ignored, missing ids appended stably); and every task's `order` field
is rewritten to its position `0, 1, 2, ...`. -/
theorem c2_reorder_permutation (state : List Task) (taskIds : List Str) (now : Str)
    (hnd : (state.map Task.id).Nodup) (hN : ∀ t ∈ state, NormalTask t)
    (hnow : now ≠ []) :
    ((handleReorderTasks state taskIds now).map Task.id).Perm (state.map Task.id) ∧
    (handleReorderTasks state taskIds now).map Task.id =
      (reorderPick (state.map Task.id) taskIds []).1 ++
        (state.filter
          (fun t => t.id ∉ (reorderPick (state.map Task.id) taskIds []).2)).map Task.id ∧
    (handleReorderTasks state taskIds now).map Task.order =
      (List.range (handleReorderTasks state taskIds now).length).map Int.ofNat := by
  obtain ⟨hp1, hp2, hp3⟩ := reorderPick_spec (state.map Task.id) taskIds []
  have hfind : ∀ x, x ∈ state.map Task.id →
      ∃ t, state.reverse.find? (fun t => t.id = x) = some t ∧ t.id = x ∧ NormalTask t := by
    intro x hx
    obtain ⟨t0, ht0, rfl⟩ := List.mem_map.mp hx
    have hex : ∃ u ∈ state.reverse, (fun t => decide (t.id = t0.id)) u = true :=
      ⟨t0, List.mem_reverse.mpr ht0, by simp⟩
    obtain ⟨t, ht⟩ := Option.isSome_iff_exists.mp (List.find?_isSome.mpr hex)
    refine ⟨t, ht, by simpa using List.find?_some ht, ?_⟩
    exact hN t (List.mem_reverse.mp (List.mem_of_find?_eq_some ht))
  have hordmem : ∀ x ∈ (reorderPick (state.map Task.id) taskIds []).1 ++
      (state.filter
        (fun t => t.id ∉ (reorderPick (state.map Task.id) taskIds []).2)).map Task.id,
      x ∈ state.map Task.id := by
    intro x hx
    rcases List.mem_append.mp hx with hx | hx
    · exact (hp1 x hx).1
    · obtain ⟨t, ht, rfl⟩ := List.mem_map.mp hx
      exact List.mem_map_of_mem Task.id (List.mem_of_mem_filter ht)
  have hwrite := reorderWrite_spec now hnow
    ((reorderPick (state.map Task.id) taskIds []).1 ++
      (state.filter
        (fun t => t.id ∉ (reorderPick (state.map Task.id) taskIds []).2)).map Task.id)
    (fun id => state.reverse.find? (fun t => t.id = id)) 0
    (fun x hx => hfind x (hordmem x hx))
  have hmain : (handleReorderTasks state taskIds now) =
      reorderWrite (fun id => state.reverse.find? (fun t => t.id = id)) now
        ((reorderPick (state.map Task.id) taskIds []).1 ++
          (state.filter
            (fun t => t.id ∉ (reorderPick (state.map Task.id) taskIds []).2)).map Task.id)
        0 := rfl
  have hnodup : ((reorderPick (state.map Task.id) taskIds []).1 ++
      (state.filter
        (fun t => t.id ∉ (reorderPick (state.map Task.id) taskIds []).2)).map
        Task.id).Nodup := by
    rw [List.nodup_append]
    refine ⟨hp2, ((List.filter_sublist state).map Task.id).nodup hnd, ?_⟩
    intro x hx1 hx2
    obtain ⟨t, ht, rfl⟩ := List.mem_map.mp hx2
    have := List.of_mem_filter ht
    simp only [decide_not, Bool.not_eq_true', decide_eq_false_iff_not] at this
    exact this ((hp3 t.id).mpr (Or.inl hx1))
  have hmem : ∀ x, x ∈ (reorderPick (state.map Task.id) taskIds []).1 ++
      (state.filter
        (fun t => t.id ∉ (reorderPick (state.map Task.id) taskIds []).2)).map Task.id ↔
      x ∈ state.map Task.id := by
    intro x
    refine ⟨hordmem x, ?_⟩
    intro hx
    by_cases hp : x ∈ (reorderPick (state.map Task.id) taskIds []).2
    · exact List.mem_append.mpr (Or.inl (((hp3 x).mp hp).resolve_right (by simp)))
    · obtain ⟨t, ht, rfl⟩ := List.mem_map.mp hx
      refine List.mem_append.mpr (Or.inr ?_)
      refine List.mem_map_of_mem Task.id (List.mem_filter.mpr ⟨ht, ?_⟩)
      simpa using hp
  refine ⟨?_, ?_, ?_⟩
  · rw [hmain, hwrite.1]
    exact (List.perm_ext_iff_of_nodup hnodup hnd).mpr hmem
  · rw [hmain, hwrite.1]
  · rw [hmain, hwrite.2]
    have hlen : (reorderWrite (fun id => state.reverse.find? (fun t => t.id = id)) now
        ((reorderPick (state.map Task.id) taskIds []).1 ++
          (state.filter
            (fun t => t.id ∉ (reorderPick (state.map Task.id) taskIds []).2)).map Task.id)
        0).length =
        ((reorderPick (state.map Task.id) taskIds []).1 ++
          (state.filter
            (fun t => t.id ∉ (reorderPick (state.map Task.id) taskIds []).2)).map
            Task.id).length := by
      have := congrArg List.length hwrite.1
      simpa using this
    rw [hlen, List.range_eq_range']

/-- C2 witness: reordering a two-task store with input containing an
unknown id, a duplicate, and omitting one known id. -/
theorem c2_witness :
    ([workTask1, workTask2].map Task.id).Nodup ∧
    (handleReorderTasks [workTask1, workTask2] [str "w2", str "zz", str "w2"]
        (str "N")).map Task.id = [str "w2", str "w1"] ∧
    (handleReorderTasks [workTask1, workTask2] [str "w2", str "zz", str "w2"]
        (str "N")).map Task.order = [(0 : Int), 1] := by
  have h := c2_reorder_permutation [workTask1, workTask2] [str "w2", str "zz", str "w2"]
    (str "N") (by decide) (by decide) (by decide)
  refine ⟨by decide, ?_, ?_⟩
  · rw [h.2.1]
    decide
  · rw [h.2.2]
    have hlen : (handleReorderTasks [workTask1, workTask2]
        [str "w2", str "zz", str "w2"] (str "N")).length = 2 := by
      have := congrArg List.length h.2.1
      simpa using this
    rw [hlen]
    decide

/-! ## Lemmas: `writeTask` and filenames -/

/-- `fname` is a file of the task with the given id (filename layout
`id--slug.md`). -/
def taskFileFor (id fname : Str) : Prop :=
  fname.take (id ++ str "--").length = id ++ str "--"

instance : ∀ id fname, Decidable (taskFileFor id fname) := fun id fname => by
  unfold taskFileFor; infer_instance

theorem taskFilename_taskFileFor (t : Task) : taskFileFor t.id (taskFilename t) := by
  rw [taskFileFor, taskFilename]
  rw [show t.id ++ str "--" ++ slugify t.title ++ str ".md" =
    (t.id ++ str "--") ++ (slugify t.title ++ str ".md") by simp]
  exact List.take_left _ _

theorem fsNames_fsWrite (fs : Fs) (name content : Str) (n : Str) :
    n ∈ fsNames (fsWrite fs name content) ↔ (n = name ∨ n ∈ fsNames fs) := by
  rw [fsWrite]
  by_cases h : fs.any (fun p => p.1 = name)
  · rw [if_pos h]
    have hmapeq : (fs.map (fun p => if p.1 = name then (name, content) else p)).map
        Prod.fst = fs.map Prod.fst := by
      rw [List.map_map]
      refine List.map_congr_left ?_
      intro p _
      by_cases hp : p.1 = name <;> simp [hp]
    have hname : name ∈ fsNames fs := by
      obtain ⟨p, hp, hpe⟩ := List.any_eq_true.mp h
      exact List.mem_map.mpr ⟨p, hp, by simpa using hpe⟩
    rw [fsNames, hmapeq]
    constructor
    · intro hn; exact Or.inr hn
    · rintro (rfl | hn)
      · exact hname
      · exact hn
  · rw [if_neg h]
    rw [fsNames, List.map_append]
    simp [fsNames, or_comm]

theorem fsNames_fsRemove (fs : Fs) (name n : Str) :
    n ∈ fsNames (fsRemove fs name) ↔ (n ∈ fsNames fs ∧ n ≠ name) := by
  rw [fsRemove, fsNames, fsNames]
  constructor
  · intro hn
    obtain ⟨p, hp, rfl⟩ := List.mem_map.mp hn
    have hf := List.of_mem_filter hp
    refine ⟨List.mem_map_of_mem _ (List.mem_of_mem_filter hp), by simpa using hf⟩
  · rintro ⟨hn, hne⟩
    obtain ⟨p, hp, rfl⟩ := List.mem_map.mp hn
    exact List.mem_map_of_mem _ (List.mem_filter.mpr ⟨hp, by simpa using hne⟩)

/-- C4 counterexample to the claim as stated: the titles `"Hello!"` and
`"Hello?"` differ but slugify identically, so updating the title from one
to the other does not change the filename. -/
theorem c4_counterexample :
    str "Hello!" ≠ str "Hello?" ∧
    slugify (str "Hello!") = slugify (str "Hello?") ∧
    taskFilename { workTask1 with title := str "Hello!" } =
      taskFilename { workTask1 with title := str "Hello?" } := by
  refine ⟨by decide, by decide, by decide⟩

/-- C4 (amended).  `writeTask` regenerates the filename from the id and the
slug of the (new) title, writes the new file, and removes the previous file
exactly when the regenerated name differs (titles with equal slugs reuse the
same file).  If before the write the only file of this task was
`prevName`, then afterwards the task again corresponds to exactly one file:
the regenerated one. -/
theorem c4_write_task_single_file (fs : Fs) (rawTask : RawTask)
    (prevName : Str) (now : Str)
    (hunique : ∀ n ∈ fsNames fs,
      taskFileFor (normalizeTask rawTask now).id n → n = prevName) :
    (writeTask fs rawTask (some prevName) now).fileName =
      taskFilename (normalizeTask rawTask now) ∧
    (writeTask fs rawTask (some prevName) now).fileName ∈
      fsNames (writeTask fs rawTask (some prevName) now).fs ∧
    (∀ n ∈ fsNames (writeTask fs rawTask (some prevName) now).fs,
      taskFileFor (normalizeTask rawTask now).id n →
        n = (writeTask fs rawTask (some prevName) now).fileName) ∧
    (prevName ≠ (writeTask fs rawTask (some prevName) now).fileName →
      prevName ∉ fsNames (writeTask fs rawTask (some prevName) now).fs) := by
  have hfn : (writeTask fs rawTask (some prevName) now).fileName =
      taskFilename (normalizeTask rawTask now) := rfl
  by_cases hpn : prevName ≠ taskFilename (normalizeTask rawTask now)
  · have hfs : (writeTask fs rawTask (some prevName) now).fs =
        fsRemove (fsWrite fs (taskFilename (normalizeTask rawTask now))
          (taskToMarkdown (taskToRaw (normalizeTask rawTask now)) now)) prevName := by
      rw [writeTask]
      simp only [if_pos hpn]
    refine ⟨hfn, ?_, ?_, ?_⟩
    · rw [hfn, hfs, fsNames_fsRemove, fsNames_fsWrite]
      exact ⟨Or.inl rfl, fun hc => hpn hc.symm⟩
    · intro n hn htf
      rw [hfs, fsNames_fsRemove, fsNames_fsWrite] at hn
      rcases hn.1 with rfl | hmem
      · exact hfn.symm
      · exact absurd (hunique n hmem htf) hn.2
    · intro _
      rw [hfs, fsNames_fsRemove]
      simp
  · push_neg at hpn
    have hfs : (writeTask fs rawTask (some prevName) now).fs =
        fsWrite fs (taskFilename (normalizeTask rawTask now))
          (taskToMarkdown (taskToRaw (normalizeTask rawTask now)) now) := by
      rw [writeTask]
      simp only [hpn]
      simp
    refine ⟨hfn, ?_, ?_, ?_⟩
    · rw [hfn, hfs, fsNames_fsWrite]
      exact Or.inl rfl
    · intro n hn htf
      rw [hfs, fsNames_fsWrite] at hn
      rcases hn with rfl | hmem
      · exact hfn.symm
      · rw [hunique n hmem htf]
        exact hpn.trans hfn.symm
    · intro hc
      exact absurd (hpn.trans hfn.symm) hc

/-- C4 witness: renaming the sample task's title regenerates the filename
and removes the old file, leaving exactly one file for the task. -/
theorem c4_witness :
    (∀ n ∈ fsNames [(taskFilename workTask1, str "c")],
      taskFileFor (normalizeTask { taskToRaw workTask1 with
        title := .vstr (str "New name") } (str "U2")).id n →
        n = taskFilename workTask1) ∧
    (writeTask [(taskFilename workTask1, str "c")]
        { taskToRaw workTask1 with title := .vstr (str "New name") }
        (some (taskFilename workTask1)) (str "U2")).fileName =
      taskFilename (normalizeTask { taskToRaw workTask1 with
        title := .vstr (str "New name") } (str "U2")) ∧
    fsNames (writeTask [(taskFilename workTask1, str "c")]
        { taskToRaw workTask1 with title := .vstr (str "New name") }
        (some (taskFilename workTask1)) (str "U2")).fs =
      [taskFilename (normalizeTask { taskToRaw workTask1 with
        title := .vstr (str "New name") } (str "U2"))] := by
  refine ⟨by decide, ?_, ?_⟩
  · exact (c4_write_task_single_file [(taskFilename workTask1, str "c")]
      { taskToRaw workTask1 with title := .vstr (str "New name") }
      (taskFilename workTask1) (str "U2") (by decide)).1
  · decide

/-! ## Lemmas: the frontmatter round trip — character level -/

/-- The escaped body of a JSON string literal. -/
def escBody (s : Str) : Str := (s.map jsonEscapeChar).flatten

theorem jsonStr_eq (s : Str) : jsonStr s = '"' :: escBody s ++ ['"'] := rfl

theorem hexVal_hexChar : ∀ d, d < 16 → hexVal (hexChar d) = some d := by decide

theorem char_ofNat_toNat_digit : ∀ m, m < 10 → (Char.ofNat (48 + m)).toNat = 48 + m := by
  decide

theorem jsonEscapeChar_no_newline (c : Char) : '\n' ∉ jsonEscapeChar c := by
  rw [jsonEscapeChar]
  split_ifs with h1 h2 h3 h4 h5 h6 h7 h8
  · decide
  · decide
  · decide
  · decide
  · decide
  · decide
  · decide
  · intro hmem
    have hall : ∀ d, d < 16 → hexChar d ≠ '\n' := by decide
    have ha : c.toNat / 16 < 16 := by omega
    have hb : c.toNat % 16 < 16 := by omega
    simp only [List.mem_cons, List.not_mem_nil, or_false] at hmem
    rcases hmem with h | h | h | h | h | h
    · exact absurd h (by decide)
    · exact absurd h (by decide)
    · exact absurd h (by decide)
    · exact absurd h (by decide)
    · exact hall _ ha h.symm
    · exact hall _ hb h.symm
  · intro hmem
    rcases List.mem_singleton.mp hmem with rfl
    exact h8 (by decide)

theorem escBody_no_newline (s : Str) : '\n' ∉ escBody s := by
  intro hmem
  rw [escBody] at hmem
  obtain ⟨l, hl, hc⟩ := List.mem_flatten.mp hmem
  obtain ⟨c, _, rfl⟩ := List.mem_map.mp hl
  exact jsonEscapeChar_no_newline c hc

theorem jsonStr_no_newline (s : Str) : '\n' ∉ jsonStr s := by
  rw [jsonStr_eq]
  intro hmem
  rcases List.mem_cons.mp hmem with h | hmem
  · exact absurd h (by decide)
  · rcases List.mem_append.mp hmem with h | h
    · exact escBody_no_newline s h
    · rcases List.mem_singleton.mp h with h
      exact absurd h (by decide)

theorem joinChar_comma_no_newline (ls : List Str) (h : ∀ l ∈ ls, '\n' ∉ l) :
    '\n' ∉ joinChar ',' ls := by
  induction ls with
  | nil => simp [joinChar]
  | cons l rest ih =>
    cases rest with
    | nil => simpa [joinChar] using h l (List.mem_cons_self _ _)
    | cons l2 rest2 =>
      have hjoin : joinChar ',' (l :: l2 :: rest2) = l ++ ',' :: joinChar ',' (l2 :: rest2) :=
        rfl
      rw [hjoin]
      intro hmem
      rcases List.mem_append.mp hmem with hm | hm
      · exact h l (List.mem_cons_self _ _) hm
      · rcases List.mem_cons.mp hm with he | hm
        · exact absurd he (by decide)
        · exact ih (fun x hx => h x (List.mem_cons_of_mem _ hx)) hm

theorem jsonStrArray_no_newline (ls : List Str) : '\n' ∉ jsonStrArray ls := by
  rw [jsonStrArray]
  intro hmem
  rcases List.mem_cons.mp hmem with h | hmem
  · exact absurd h (by decide)
  · rcases List.mem_append.mp hmem with h | h
    · exact joinChar_comma_no_newline _
        (fun l hl => by
          obtain ⟨x, _, rfl⟩ := List.mem_map.mp hl
          exact jsonStr_no_newline x) h
    · rcases List.mem_singleton.mp h with h
      exact absurd h (by decide)

theorem natToStrAux_digits : ∀ (fuel n : Nat), ∀ c ∈ natToStrAux fuel n,
    48 ≤ c.toNat ∧ c.toNat ≤ 57 := by
  intro fuel
  induction fuel with
  | zero => intro n c hc; simp [natToStrAux] at hc
  | succ fuel ih =>
    intro n c hc
    rw [natToStrAux] at hc
    split at hc
    · rcases List.mem_singleton.mp hc with rfl
      rename_i h
      rw [char_ofNat_toNat_digit n h]
      omega
    · rcases List.mem_append.mp hc with h | h
      · exact ih _ c h
      · rcases List.mem_singleton.mp h with rfl
        rw [char_ofNat_toNat_digit _ (Nat.mod_lt _ (by omega))]
        omega

theorem natToStr_digits (n : Nat) : ∀ c ∈ natToStr n, 48 ≤ c.toNat ∧ c.toNat ≤ 57 :=
  natToStrAux_digits (n + 1) n

theorem intToStr_no_newline (k : Int) : '\n' ∉ intToStr k := by
  rw [intToStr]
  split
  · intro hmem
    rcases List.mem_cons.mp hmem with h | h
    · exact absurd h (by decide)
    · have := natToStr_digits _ _ h
      have : ('\n').toNat = 10 := by decide
      omega
  · intro hmem
    have := natToStr_digits _ _ hmem
    have : ('\n').toNat = 10 := by decide
    omega

theorem jsonBool_no_newline (b : Bool) : '\n' ∉ jsonBool b := by
  cases b <;> decide

theorem isWs_eq_false_of_toNat {c : Char} (h1 : 33 ≤ c.toNat) (h2 : c.toNat ≤ 126) :
    isWs c = false := by
  have e1 : c ≠ ' ' := fun h => absurd (h ▸ h1) (by decide)
  have e2 : c ≠ '\t' := fun h => absurd (h ▸ h1) (by decide)
  have e3 : c ≠ '\n' := fun h => absurd (h ▸ h1) (by decide)
  have e4 : c ≠ '\r' := fun h => absurd (h ▸ h1) (by decide)
  have e5 : c ≠ '\x0b' := fun h => absurd (h ▸ h1) (by decide)
  have e6 : c ≠ '\x0c' := fun h => absurd (h ▸ h1) (by decide)
  have e7 : c ≠ '\xa0' := fun h => absurd (h ▸ h2) (by decide)
  simp [isWs, e1, e2, e3, e4, e5, e6, e7]

theorem jsonStr_getLast (s : Str) : (jsonStr s).getLast? = some '"' := by
  rw [jsonStr_eq]
  exact List.getLast?_concat _

theorem jsonStrArray_getLast (l : List Str) : (jsonStrArray l).getLast? = some ']' := by
  rw [jsonStrArray]
  exact List.getLast?_concat _

theorem natToStr_head_digit (n : Nat) :
    ∃ c t, natToStr n = c :: t ∧ 48 ≤ c.toNat ∧ c.toNat ≤ 57 := by
  cases h : natToStr n with
  | nil => exact absurd h (natToStr_ne_nil n)
  | cons c t =>
    have hd := natToStr_digits n c (by rw [h]; exact List.mem_cons_self _ _)
    exact ⟨c, t, rfl, hd.1, hd.2⟩

theorem natToStr_getLast_digit (n : Nat) :
    ∃ c, (natToStr n).getLast? = some c ∧ 48 ≤ c.toNat ∧ c.toNat ≤ 57 := by
  cases h : (natToStr n).getLast? with
  | none =>
    rw [List.getLast?_eq_none_iff] at h
    exact absurd h (natToStr_ne_nil n)
  | some c =>
    have hmem : c ∈ natToStr n := List.mem_of_mem_getLast? h
    have hd := natToStr_digits n c hmem
    exact ⟨c, rfl, hd.1, hd.2⟩

theorem intToStr_head_not_ws (k : Int) : ∀ {c t}, intToStr k = c :: t → isWs c = false := by
  intro c t h
  rw [intToStr] at h
  split at h
  · rcases h with ⟨rfl, -⟩
    decide
  · obtain ⟨c2, t2, h2, hd1, hd2⟩ := natToStr_head_digit k.toNat
    rw [h2] at h
    rcases h with ⟨rfl, -⟩
    exact isWs_eq_false_of_toNat (by omega) (by omega)

theorem intToStr_getLast_not_ws (k : Int) :
    ∀ {c}, (intToStr k).getLast? = some c → isWs c = false := by
  intro c h
  rw [intToStr] at h
  split at h
  · obtain ⟨d, hd, hd1, hd2⟩ := natToStr_getLast_digit (-k).toNat
    cases hnat : natToStr (-k).toNat with
    | nil => exact absurd hnat (natToStr_ne_nil _)
    | cons a l =>
      rw [hnat, List.getLast?_cons_cons, ← hnat, hd] at h
      cases h
      exact isWs_eq_false_of_toNat (by omega) (by omega)
  · obtain ⟨d, hd, hd1, hd2⟩ := natToStr_getLast_digit k.toNat
    rw [hd] at h
    cases h
    exact isWs_eq_false_of_toNat (by omega) (by omega)

/-- Serialize-then-parse identity for JSON string literals: the parser,
started after the opening quote, recovers the escaped content exactly. -/
theorem parseJString_emit (s : Str) : ∀ (rest : Str),
    parseJString (escBody s ++ '"' :: rest) = some (s, rest) := by
  induction s with
  | nil =>
    intro rest
    show parseJString ('"' :: rest) = some ([], rest)
    rw [parseJString.eq_def]
    simp
  | cons c cs ih =>
    intro rest
    have hesc : escBody (c :: cs) = jsonEscapeChar c ++ escBody cs := by
      simp [escBody]
    rw [hesc, List.append_assoc, jsonEscapeChar]
    split_ifs with h1 h2 h3 h4 h5 h6 h7 h8
    · subst h1; rw [parseJString.eq_def]; simp [escDecode, ih rest]
    · subst h2; rw [parseJString.eq_def]; simp [escDecode, ih rest]
    · subst h3; rw [parseJString.eq_def]; simp [escDecode, ih rest]
    · subst h4; rw [parseJString.eq_def]; simp [escDecode, ih rest]
    · subst h5; rw [parseJString.eq_def]; simp [escDecode, ih rest]
    · subst h6; rw [parseJString.eq_def]; simp [escDecode, ih rest]
    · subst h7; rw [parseJString.eq_def]; simp [escDecode, ih rest]
    · have ha : c.toNat / 16 < 16 := by omega
      have hb : c.toNat % 16 < 16 := by omega
      rw [parseJString.eq_def]
      have h0 : hexVal '0' = some 0 := by decide
      simp only [List.cons_append, hex4, h0,
        hexVal_hexChar _ ha, hexVal_hexChar _ hb, ih rest]
      have hcode : c.toNat / 16 * 16 + c.toNat % 16 = c.toNat := by omega
      simp [hcode, Char.ofNat_toNat, ih rest]
    · rw [parseJString.eq_def]
      simp [h1, h2, h8, ih rest]

/-! ## Lemmas: JSON value round trips -/

theorem parseJsonValue_jsonStr (s rest : Str) :
    parseJsonValue (jsonStr s ++ rest) = some (.vstr s, rest) := by
  have hshape : jsonStr s ++ rest = '"' :: (escBody s ++ '"' :: rest) := by
    rw [jsonStr_eq]; simp
  rw [hshape]
  have hstep : parseJsonValue ('"' :: (escBody s ++ '"' :: rest)) =
      (parseJString (escBody s ++ '"' :: rest)).map (fun p => (.vstr p.1, p.2)) := rfl
  rw [hstep, parseJString_emit]
  rfl

theorem digitVal_digit : ∀ m, m < 10 → digitVal (Char.ofNat (48 + m)) = some m := by
  decide

theorem jsonStr_length (s : Str) : jsonStr s = '"' :: escBody s ++ ['"'] := jsonStr_eq s

theorem joinChar_jsonStr_length (l : List Str) :
    l.length ≤ (joinChar ',' (l.map jsonStr)).length := by
  induction l with
  | nil => simp [joinChar]
  | cons e es ih =>
    cases es with
    | nil => simp [joinChar, jsonStr_eq]
    | cons e2 es2 =>
      have hjoin : joinChar ',' ((e :: e2 :: es2).map jsonStr) =
          jsonStr e ++ ',' :: joinChar ',' ((e2 :: es2).map jsonStr) := rfl
      rw [hjoin]
      have h2 : 1 ≤ (jsonStr e).length := by rw [jsonStr_eq]; simp
      simp only [List.length_append, List.length_cons, List.length_map] at *
      omega

theorem joinChar_jsonStr_cons (e : Str) (es : List Str) :
    ∃ y, joinChar ',' ((e :: es).map jsonStr) = '"' :: y := by
  cases es with
  | nil => exact ⟨escBody e ++ ['"'], by simp [joinChar, jsonStr_eq]⟩
  | cons e2 es2 =>
    refine ⟨escBody e ++ ['"'] ++ ',' :: joinChar ',' ((e2 :: es2).map jsonStr), ?_⟩
    have hjoin : joinChar ',' ((e :: e2 :: es2).map jsonStr) =
        jsonStr e ++ ',' :: joinChar ',' ((e2 :: es2).map jsonStr) := rfl
    rw [hjoin, jsonStr_eq]
    simp

theorem parseJArrayItemsAux_emit : ∀ (l : List Str), l ≠ [] → ∀ (rest : Str) (fuel : Nat),
    l.length ≤ fuel →
    parseJArrayItemsAux fuel (joinChar ',' (l.map jsonStr) ++ ']' :: rest) =
      some (l, rest) := by
  intro l
  induction l with
  | nil => intro h; exact absurd rfl h
  | cons e es ih =>
    intro _ rest fuel hfuel
    obtain ⟨fuel, rfl⟩ : ∃ f, fuel = f + 1 := by
      cases fuel with
      | zero => simp at hfuel
      | succ f => exact ⟨f, rfl⟩
    cases es with
    | nil =>
      have hshape : joinChar ',' ([e].map jsonStr) ++ ']' :: rest =
          '"' :: (escBody e ++ '"' :: ']' :: rest) := by
        simp [joinChar, jsonStr_eq]
      rw [hshape, parseJArrayItemsAux]
      simp [parseJString_emit]
    | cons e2 es2 =>
      have hshape : joinChar ',' ((e :: e2 :: es2).map jsonStr) ++ ']' :: rest =
          '"' :: (escBody e ++ '"' ::
            ',' :: (joinChar ',' ((e2 :: es2).map jsonStr) ++ ']' :: rest)) := by
        have hjoin : joinChar ',' ((e :: e2 :: es2).map jsonStr) =
            jsonStr e ++ ',' :: joinChar ',' ((e2 :: es2).map jsonStr) := rfl
        rw [hjoin, jsonStr_eq]
        simp
      rw [hshape, parseJArrayItemsAux]
      have hrec := ih (by simp) rest fuel (by simpa using Nat.le_of_succ_le_succ hfuel)
      simp only [List.map_cons] at hrec
      simp [parseJString_emit, hrec]

theorem parseJsonValue_jsonStrArray (l : List Str) (rest : Str) :
    parseJsonValue (jsonStrArray l ++ rest) = some (.varr l, rest) := by
  cases l with
  | nil =>
    have hshape : jsonStrArray [] ++ rest = '[' :: ']' :: rest := by
      simp [jsonStrArray, joinChar]
    rw [hshape]
    rfl
  | cons e es =>
    obtain ⟨y, hy⟩ := joinChar_jsonStr_cons e es
    have hshape : jsonStrArray (e :: es) ++ rest =
        '[' :: ('"' :: (y ++ ']' :: rest)) := by
      rw [jsonStrArray, hy]
      simp
    rw [hshape]
    have hstep : parseJsonValue ('[' :: ('"' :: (y ++ ']' :: rest))) =
        (parseJArrayItems ('"' :: (y ++ ']' :: rest))).map
          (fun p => (.varr p.1, p.2)) := rfl
    rw [hstep]
    have htail : ('"' :: (y ++ ']' :: rest)) =
        joinChar ',' ((e :: es).map jsonStr) ++ ']' :: rest := by
      rw [hy]; simp
    have hlen : (e :: es).length ≤ ('"' :: (y ++ ']' :: rest)).length := by
      rw [htail]
      have := joinChar_jsonStr_length (e :: es)
      simp only [List.length_append, List.length_cons] at *
      omega
    have haux : parseJArrayItemsAux ('"' :: (y ++ ']' :: rest)).length
        ('"' :: (y ++ ']' :: rest)) = some (e :: es, rest) := by
      rw [htail]
      rw [htail] at hlen
      exact parseJArrayItemsAux_emit (e :: es) (by simp) rest _ hlen
    rw [parseJArrayItems, haux]
    rfl

theorem parseDigitsAcc_append_digit (c : Char) (d : Nat) (hc : digitVal c = some d) :
    ∀ (A : Str) (acc m : Nat), parseDigitsAcc A acc = (m, []) →
    parseDigitsAcc (A ++ [c]) acc = (m * 10 + d, []) := by
  intro A
  induction A with
  | nil =>
    intro acc m h
    rw [parseDigitsAcc] at h
    cases h
    simp [parseDigitsAcc, hc]
  | cons a A ih =>
    intro acc m h
    rw [parseDigitsAcc] at h
    rw [List.cons_append, parseDigitsAcc]
    cases hda : digitVal a with
    | none => rw [hda] at h; simp at h
    | some da =>
      rw [hda] at h
      simp only
      exact ih _ _ h

theorem parseDigitsAcc_natToStrAux : ∀ (fuel n acc : Nat), n < fuel →
    parseDigitsAcc (natToStrAux fuel n) acc =
      (acc * 10 ^ (natToStrAux fuel n).length + n, []) := by
  intro fuel
  induction fuel with
  | zero => intro n acc h; omega
  | succ fuel ih =>
    intro n acc h
    by_cases hn : n < 10
    · rw [natToStrAux, if_pos hn]
      simp [parseDigitsAcc, digitVal_digit n hn]
    · rw [natToStrAux, if_neg hn]
      have hdiv : n / 10 < fuel := by omega
      have hmod : n % 10 < 10 := by omega
      have hbase := ih (n / 10) acc hdiv
      have happ := parseDigitsAcc_append_digit (Char.ofNat (48 + n % 10)) (n % 10)
        (digitVal_digit _ hmod) _ acc _ hbase
      rw [happ]
      have hlen : (natToStrAux fuel (n / 10) ++ [Char.ofNat (48 + n % 10)]).length =
          (natToStrAux fuel (n / 10)).length + 1 := by simp
      rw [hlen, pow_succ]
      have : (acc * 10 ^ (natToStrAux fuel (n / 10)).length + n / 10) * 10 + n % 10 =
          acc * (10 ^ (natToStrAux fuel (n / 10)).length * 10) + n := by
        have := Nat.div_add_mod n 10
        ring_nf
        omega
      rw [this]

theorem natToStrAux_head_pos : ∀ (fuel n : Nat), 0 < n → n < fuel →
    ∃ d t, natToStrAux fuel n = Char.ofNat (48 + d) :: t ∧ 0 < d ∧ d < 10 := by
  intro fuel
  induction fuel with
  | zero => intro n h1 h2; omega
  | succ fuel ih =>
    intro n h1 h2
    by_cases hn : n < 10
    · rw [natToStrAux, if_pos hn]
      exact ⟨n, [], rfl, h1, hn⟩
    · rw [natToStrAux, if_neg hn]
      have hdivpos : 0 < n / 10 := by omega
      have hdivlt : n / 10 < fuel := by omega
      obtain ⟨d, t, hshape, hd1, hd2⟩ := ih (n / 10) hdivpos hdivlt
      exact ⟨d, t ++ [Char.ofNat (48 + n % 10)], by rw [hshape]; simp, hd1, hd2⟩

theorem parseJNat_natToStr (n : Nat) : parseJNat (natToStr n) = some (n, []) := by
  rcases Nat.eq_zero_or_pos n with rfl | hpos
  · decide
  · have hfull := parseDigitsAcc_natToStrAux (n + 1) n 0 (by omega)
    obtain ⟨d, t, hshape, hd0, hd10⟩ := natToStrAux_head_pos (n + 1) n hpos (by omega)
    have hdig : digitVal (Char.ofNat (48 + d)) = some d := digitVal_digit d hd10
    obtain ⟨d2, rfl⟩ : ∃ d2, d = d2 + 1 := ⟨d - 1, by omega⟩
    rw [hshape] at hfull
    rw [parseDigitsAcc, hdig] at hfull
    simp only [Nat.zero_mul, Nat.zero_add] at hfull
    rw [natToStr, hshape, parseJNat.eq_def]
    dsimp only
    rw [hdig]
    show some (parseDigitsAcc t (d2 + 1)) = some (n, [])
    rw [hfull]

theorem digit_not_special {c : Char} (h1 : 48 ≤ c.toNat) (h2 : c.toNat ≤ 57) :
    c ≠ '"' ∧ c ≠ '[' ∧ c ≠ 't' ∧ c ≠ 'f' ∧ c ≠ 'n' ∧ c ≠ '-' :=
  ⟨fun h => absurd (h ▸ h1) (by decide), fun h => absurd (h ▸ h2) (by decide),
   fun h => absurd (h ▸ h2) (by decide), fun h => absurd (h ▸ h2) (by decide),
   fun h => absurd (h ▸ h2) (by decide), fun h => absurd (h ▸ h1) (by decide)⟩

theorem parseJsonValue_intToStr (k : Int) :
    parseJsonValue (intToStr k) = some (.vnum k, []) := by
  rw [intToStr]
  split
  · rename_i hneg
    have hstep : parseJsonValue ('-' :: natToStr (-k).toNat) =
        (parseJNat (natToStr (-k).toNat)).map
          (fun p => (.vnum (-(p.1 : Int)), p.2)) := rfl
    rw [hstep, parseJNat_natToStr, Option.map_some']
    have hcast : (-(((-k).toNat : Int))) = k := by omega
    dsimp only
    rw [hcast]
  · rename_i hpos
    obtain ⟨c, t, hshape, hd1, hd2⟩ := natToStr_head_digit k.toNat
    obtain ⟨e1, e2, e3, e4, e5, e6⟩ := digit_not_special hd1 hd2
    rw [hshape, parseJsonValue.eq_def]
    dsimp only
    rw [if_neg e1, if_neg e2, if_neg e3, if_neg e4, if_neg e5, if_neg e6, ← hshape,
      parseJNat_natToStr, Option.map_some']
    have hcast : ((k.toNat : Int)) = k := by omega
    dsimp only
    rw [hcast]

theorem parseJson_jsonStr (s : Str) : parseJson (jsonStr s) = some (.vstr s) := by
  have := parseJsonValue_jsonStr s []
  rw [List.append_nil] at this
  rw [parseJson, this]

theorem parseJson_jsonStrArray (l : List Str) :
    parseJson (jsonStrArray l) = some (.varr l) := by
  have := parseJsonValue_jsonStrArray l []
  rw [List.append_nil] at this
  rw [parseJson, this]

theorem parseJson_jsonBool (b : Bool) : parseJson (jsonBool b) = some (.vbool b) := by
  cases b <;> decide

theorem parseJson_intToStr (k : Int) : parseJson (intToStr k) = some (.vnum k) := by
  rw [parseJson, parseJsonValue_intToStr]

/-! ## Lemmas: line splitting and the frontmatter delimiter search -/

theorem splitOnChar_no_sep (c : Char) : ∀ (l : Str), c ∉ l → splitOnChar c l = [l] := by
  intro l
  induction l with
  | nil => intro _; rfl
  | cons a rest ih =>
    intro h
    have hac : a ≠ c := fun heq => h (heq ▸ List.mem_cons_self a rest)
    have hcr : c ∉ rest := fun hm => h (List.mem_cons_of_mem a hm)
    simp only [splitOnChar, ih hcr, if_neg hac]

theorem splitOnChar_sep (c : Char) : ∀ (l rest : Str), c ∉ l →
    splitOnChar c (l ++ c :: rest) = l :: splitOnChar c rest := by
  intro l
  induction l with
  | nil =>
    intro rest _
    simp [splitOnChar]
  | cons a l ih =>
    intro rest h
    have hac : a ≠ c := fun heq => h (heq ▸ List.mem_cons_self a l)
    have hcl : c ∉ l := fun hm => h (List.mem_cons_of_mem a hm)
    simp only [List.cons_append, splitOnChar, List.append_eq, ih rest hcl, if_neg hac]

theorem findInfixSplit_cons_ne (a : Char) (ha : a ≠ '\n') (x : Str) :
    findInfixSplit (str "\n---") (a :: x) =
      (findInfixSplit (str "\n---") x).map (fun q => (a :: q.1, q.2)) := by
  rw [findInfixSplit]
  have hpre : (str "\n---").isPrefixOf (a :: x) = false := by
    simp only [str]
    show (['\n', '-', '-', '-'] : Str).isPrefixOf (a :: x) = false
    rw [List.isPrefixOf]
    simp [Ne.symm ha]
  rw [hpre]
  simp only [Bool.false_eq_true, if_false]
  cases findInfixSplit (str "\n---") x with
  | none => rfl
  | some q => cases q; rfl

theorem findInfixSplit_nl_cons (c : Char) (hc : c ≠ '-') (y : Str) :
    findInfixSplit (str "\n---") ('\n' :: c :: y) =
      (findInfixSplit (str "\n---") (c :: y)).map (fun q => ('\n' :: q.1, q.2)) := by
  rw [findInfixSplit]
  have hpre : (str "\n---").isPrefixOf ('\n' :: c :: y) = false := by
    simp only [str]
    show (['\n', '-', '-', '-'] : Str).isPrefixOf ('\n' :: c :: y) = false
    rw [List.isPrefixOf, List.isPrefixOf]
    simp [Ne.symm hc]
  rw [hpre]
  simp only [Bool.false_eq_true, if_false]
  cases findInfixSplit (str "\n---") (c :: y) with
  | none => rfl
  | some q => cases q; rfl

theorem findInfixSplit_base (rest : Str) :
    findInfixSplit (str "\n---") ('\n' :: '-' :: '-' :: '-' :: rest) = some ([], rest) := by
  rw [findInfixSplit]
  have hpre : (str "\n---").isPrefixOf ('\n' :: '-' :: '-' :: '-' :: rest) = true := by
    simp [str, List.isPrefixOf]
  rw [hpre]
  simp [str]

theorem findInfixSplit_append_ne (l : Str) (hl : '\n' ∉ l) (x : Str) :
    findInfixSplit (str "\n---") (l ++ x) =
      (findInfixSplit (str "\n---") x).map (fun q => (l ++ q.1, q.2)) := by
  induction l with
  | nil =>
    cases hfx : findInfixSplit (str "\n---") x with
    | none => simpa using hfx
    | some q => cases q; simpa using hfx
  | cons a l ih =>
    have ha : a ≠ '\n' := fun heq => hl (heq ▸ List.mem_cons_self a l)
    have hl2 : '\n' ∉ l := fun hm => hl (List.mem_cons_of_mem a hm)
    rw [List.cons_append, findInfixSplit_cons_ne a ha, ih hl2]
    cases findInfixSplit (str "\n---") x with
    | none => rfl
    | some q => cases q; rfl

theorem findInfixSplit_line (l : Str) (hl : '\n' ∉ l) (x : Str)
    (hxne : x ≠ []) (hx : x.head? ≠ some '-') :
    findInfixSplit (str "\n---") (l ++ '\n' :: x) =
      (findInfixSplit (str "\n---") x).map (fun q => (l ++ '\n' :: q.1, q.2)) := by
  cases x with
  | nil => exact absurd rfl hxne
  | cons c y =>
    have hc : c ≠ '-' := fun h => hx (by rw [h]; rfl)
    rw [findInfixSplit_append_ne l hl, findInfixSplit_nl_cons c hc]
    cases findInfixSplit (str "\n---") (c :: y) with
    | none => rfl
    | some q => cases q; rfl

/-! ## Lemmas: metadata lines -/

theorem trimStr_ne_nil_of_mem {L : Str} {c : Char} (hm : c ∈ L) (hw : isWs c = false) :
    trimStr L ≠ [] := by
  intro h
  rw [trimStr, trimRight_eq_nil_iff] at h
  have hL : L.takeWhile isWs ++ L.dropWhile isWs = L :=
    List.takeWhile_append_dropWhile _ _
  rw [← hL] at hm
  rcases List.mem_append.mp hm with h1 | h2
  · have := List.mem_takeWhile_imp h1
    rw [hw] at this
    exact Bool.false_ne_true this
  · have := h c (by simpa [trimLeft] using h2)
    rw [hw] at this
    exact Bool.false_ne_true this

theorem findIdx_colon : ∀ (key : Str), ':' ∉ key → ∀ (tail : Str),
    (key ++ ':' :: tail).findIdx (fun c => c = ':') = key.length := by
  intro key
  induction key with
  | nil =>
    intro _ tail
    simp [List.findIdx_cons]
  | cons a k ih =>
    intro h tail
    have ha : a ≠ ':' := fun heq => h (heq ▸ List.mem_cons_self a k)
    have hk : ':' ∉ k := fun hm => h (List.mem_cons_of_mem a hm)
    simp [List.findIdx_cons, ha, ih hk tail]

theorem parseMetaLine_emit (key v : Str)
    (hkc : ':' ∉ key) (hkt : trimStr key = key) (hkn : key ≠ [])
    (hvh : ∀ c t, v = c :: t → isWs c = false)
    (hvl : ∀ c, v.getLast? = some c → isWs c = false)
    (hvn : v ≠ []) :
    parseMetaLine (key ++ ':' :: ' ' :: v) =
      some (key, match parseJson v with | some jv => jv | none => .vstr v) := by
  have hcolon : ':' ∈ key ++ ':' :: ' ' :: v := by simp
  have htr : ¬(trimStr (key ++ ':' :: ' ' :: v) = []) :=
    trimStr_ne_nil_of_mem hcolon (by decide)
  have hcol : ¬(':' ∉ key ++ ':' :: ' ' :: v) := fun h => h hcolon
  have hfind : (key ++ ':' :: ' ' :: v).findIdx (fun c => c = ':') = key.length :=
    findIdx_colon key hkc (' ' :: v)
  have hlen : ¬(key.length = 0) := by
    cases key with
    | nil => exact absurd rfl hkn
    | cons a k => simp
  have htake : (key ++ ':' :: ' ' :: v).take key.length = key := List.take_left _ _
  have hdrop : (key ++ ':' :: ' ' :: v).drop (key.length + 1) = ' ' :: v := by
    have hsplit : key ++ ':' :: ' ' :: v = (key ++ [':']) ++ ' ' :: v := by simp
    have hlen2 : (key ++ [':']).length = key.length + 1 := by simp
    rw [hsplit, ← hlen2, List.drop_left]
  have hval : trimStr (' ' :: v) = v := by
    rw [trimStr_cons_ws _ (by decide)]
    exact trimStr_eq_self hvh hvl
  rw [parseMetaLine]
  rw [if_neg htr, if_neg hcol]
  simp only [hfind, htake, hdrop, hkt, hval, if_neg hlen]
  cases parseJson v <;> rfl

theorem joinChar_cons_of_ne_nil (c : Char) (l l2 : Str) (ls : List Str) :
    joinChar c (l :: l2 :: ls) = l ++ c :: joinChar c (l2 :: ls) := rfl

theorem joinChar_append_of_ne_nil (c : Char) : ∀ (xs ys : List Str), xs ≠ [] → ys ≠ [] →
    joinChar c (xs ++ ys) = joinChar c xs ++ c :: joinChar c ys := by
  intro xs
  induction xs with
  | nil => intro ys h _; exact absurd rfl h
  | cons x xs ih =>
    intro ys _ hys
    cases xs with
    | nil =>
      cases ys with
      | nil => exact absurd rfl hys
      | cons y ys2 =>
        rw [List.singleton_append, joinChar_cons_of_ne_nil]
        rfl
    | cons x2 xs2 =>
      have ih2 := ih ys (by simp) hys
      rw [List.cons_append] at ih2
      rw [List.cons_append, List.cons_append,
        joinChar_cons_of_ne_nil c x x2 (xs2 ++ ys),
        joinChar_cons_of_ne_nil c x x2 xs2, ih2]
      simp

theorem joinChar_head_shape (c : Char) (l : Str) (ls : List Str) :
    ∃ k, joinChar c (l :: ls) = l ++ k := by
  cases ls with
  | nil => exact ⟨[], by simp [joinChar]⟩
  | cons l2 ls2 => exact ⟨c :: joinChar c (l2 :: ls2), rfl⟩

theorem splitOnChar_joinChar : ∀ (lines : List Str), lines ≠ [] →
    (∀ l ∈ lines, '\n' ∉ l) →
    splitOnChar '\n' (joinChar '\n' lines) = lines := by
  intro lines
  induction lines with
  | nil => intro h _; exact absurd rfl h
  | cons l ls ih =>
    intro _ h
    cases ls with
    | nil =>
      have := splitOnChar_no_sep '\n' l (h l (List.mem_cons_self _ _))
      simpa [joinChar] using this
    | cons l2 ls2 =>
      rw [joinChar_cons_of_ne_nil, splitOnChar_sep _ _ _ (h l (List.mem_cons_self _ _)),
        ih (by simp) (fun x hx => h x (List.mem_cons_of_mem _ hx))]

/-- Locating the closing delimiter after a block of newline-free lines:
everything up to the `\n---` is returned verbatim. -/
theorem findInfixSplit_meta_block : ∀ (lines : List Str),
    (∀ l ∈ lines, '\n' ∉ l ∧ l.head? ≠ some '-' ∧ l ≠ []) → ∀ (tail : Str),
    findInfixSplit (str "\n---")
        (joinChar '\n' lines ++ '\n' :: '-' :: '-' :: '-' :: tail) =
      some (joinChar '\n' lines, tail) := by
  intro lines
  induction lines with
  | nil =>
    intro _ tail
    simpa [joinChar] using findInfixSplit_base tail
  | cons l ls ih =>
    intro h tail
    obtain ⟨hnl, hhd, hne⟩ := h l (List.mem_cons_self _ _)
    cases ls with
    | nil =>
      have hl : joinChar '\n' [l] = l := by simp [joinChar]
      rw [hl, findInfixSplit_append_ne l hnl, findInfixSplit_base tail]
      simp
    | cons l2 ls2 =>
      obtain ⟨hnl2, hhd2, hne2⟩ := h l2 (List.mem_cons_of_mem _ (List.mem_cons_self _ _))
      obtain ⟨c2, k2, hl2⟩ : ∃ c2 k2, l2 = c2 :: k2 := by
        cases l2 with
        | nil => exact absurd rfl hne2
        | cons a b => exact ⟨a, b, rfl⟩
      obtain ⟨k, hk⟩ := joinChar_head_shape '\n' l2 ls2
      rw [joinChar_cons_of_ne_nil, List.append_assoc, List.cons_append]
      have hx : (joinChar '\n' (l2 :: ls2) ++ '\n' :: '-' :: '-' :: '-' :: tail) ≠ [] := by
        rw [hk, hl2]
        simp
      have hxh : (joinChar '\n' (l2 :: ls2) ++
          '\n' :: '-' :: '-' :: '-' :: tail).head? ≠ some '-' := by
        rw [hk, hl2]
        intro hq
        simp only [List.cons_append, List.head?_cons] at hq
        exact hhd2 (by rw [hl2, List.head?_cons]; exact hq)
      rw [findInfixSplit_line l hnl _ hx hxh,
        ih (fun x hx2 => h x (List.mem_cons_of_mem _ hx2)) tail]
      rfl

/-- `parseMetaLine` on an emitted `key: value` line whose value parses as
JSON. -/
theorem parseMetaLine_val (key v : Str)
    (hkc : ':' ∉ key) (hkt : trimStr key = key) (hkn : key ≠ [])
    (c0 : Char) (t0 : Str) (hv : v = c0 :: t0) (hc0 : isWs c0 = false)
    (cl : Char) (hvl : v.getLast? = some cl) (hcl : isWs cl = false)
    (jv : JsVal) (hj : parseJson v = some jv) :
    parseMetaLine (key ++ ':' :: ' ' :: v) = some (key, jv) := by
  have h := parseMetaLine_emit key v hkc hkt hkn
    (fun c t hct => by rw [hv] at hct; cases hct; exact hc0)
    (fun c hcq => by rw [hvl] at hcq; cases hcq; exact hcl)
    (by rw [hv]; simp)
  rw [h, hj]

theorem parseMetaLine_jsonStr (key s : Str)
    (hkc : ':' ∉ key) (hkt : trimStr key = key) (hkn : key ≠ []) :
    parseMetaLine (key ++ ':' :: ' ' :: jsonStr s) = some (key, .vstr s) :=
  parseMetaLine_val key (jsonStr s) hkc hkt hkn
    '"' (escBody s ++ ['"']) (jsonStr_eq s) (by decide)
    '"' (jsonStr_getLast s) (by decide)
    (.vstr s) (parseJson_jsonStr s)

theorem parseMetaLine_jsonStrArray (key : Str) (l : List Str)
    (hkc : ':' ∉ key) (hkt : trimStr key = key) (hkn : key ≠ []) :
    parseMetaLine (key ++ ':' :: ' ' :: jsonStrArray l) = some (key, .varr l) :=
  parseMetaLine_val key (jsonStrArray l) hkc hkt hkn
    '[' (joinChar ',' (l.map jsonStr) ++ [']']) rfl (by decide)
    ']' (jsonStrArray_getLast l) (by decide)
    (.varr l) (parseJson_jsonStrArray l)

theorem parseMetaLine_jsonBool (key : Str) (b : Bool)
    (hkc : ':' ∉ key) (hkt : trimStr key = key) (hkn : key ≠ []) :
    parseMetaLine (key ++ ':' :: ' ' :: jsonBool b) = some (key, .vbool b) := by
  cases b with
  | false =>
    exact parseMetaLine_val key (jsonBool false) hkc hkt hkn
      'f' (str "alse") rfl (by decide)
      'e' rfl (by decide)
      (.vbool false) (parseJson_jsonBool false)
  | true =>
    exact parseMetaLine_val key (jsonBool true) hkc hkt hkn
      't' (str "rue") rfl (by decide)
      'e' rfl (by decide)
      (.vbool true) (parseJson_jsonBool true)

theorem parseMetaLine_intToStr (key : Str) (k : Int)
    (hkc : ':' ∉ key) (hkt : trimStr key = key) (hkn : key ≠ []) :
    parseMetaLine (key ++ ':' :: ' ' :: intToStr k) = some (key, .vnum k) := by
  cases hsh : intToStr k with
  | nil => exact absurd hsh (intToStr_ne_nil k)
  | cons c0 t0 =>
    cases hgl : (intToStr k).getLast? with
    | none =>
      rw [List.getLast?_eq_none_iff] at hgl
      exact absurd hgl (intToStr_ne_nil k)
    | some cl =>
      rw [← hsh]
      exact parseMetaLine_val key (intToStr k) hkc hkt hkn
        c0 t0 hsh (intToStr_head_not_ws k hsh)
        cl hgl (intToStr_getLast_not_ws k hgl)
        (.vnum k) (parseJson_intToStr k)

theorem metaLine_facts (L : Str) (c : Char) (k X : Str) (hL : L = (c :: k) ++ X)
    (hc : c ≠ '-') (hcn : c ≠ '\n') (hkn : '\n' ∉ k) (hXn : '\n' ∉ X) :
    '\n' ∉ L ∧ L.head? ≠ some '-' ∧ L ≠ [] := by
  subst hL
  refine ⟨?_, by simpa using hc, by simp⟩
  intro hm
  rcases List.mem_append.mp hm with hm | hm
  · rcases List.mem_cons.mp hm with heq | hm
    · exact hcn heq.symm
    · exact hkn hm
  · exact hXn hm

/-- The body-side normalization of `parseMarkdownTask`: one leading
newline after the closing delimiter is dropped. -/
def stripLeadNl : Str → Str
  | '\n' :: b => b
  | b => b

theorem parseMarkdownTask_found (rest now metaText after : Str)
    (hfind : findInfixSplit (str "\n---") rest = some (metaText, after))
    (body : Str) (hbody : stripLeadNl after = body) :
    parseMarkdownTask ('-' :: '-' :: '-' :: '\n' :: rest) now =
      .ok (normalizeTask
        { ((splitOnChar '\n' metaText).filterMap parseMetaLine).foldl applyMeta {} with
          description := .vstr (trimStr body) } now) := by
  have h0 : parseMarkdownTask ('-' :: '-' :: '-' :: '\n' :: rest) now =
      (match findInfixSplit (str "\n---") rest with
       | some (mt, af) =>
         .ok (normalizeTask
           { ((splitOnChar '\n' mt).filterMap parseMetaLine).foldl applyMeta {} with
             description := .vstr (trimStr (stripLeadNl af)) } now)
       | none => .error (str "Missing frontmatter block.")) := rfl
  rw [h0, hfind]
  dsimp only
  rw [hbody]

/-! ## C1: serialize/parse round trip -/

/-- C1. "Round-trip: serializing a task to its file format and parsing it
back yields an equal task (modulo trailing whitespace in description)" —
amended: the parser trims the description on BOTH ends (`body.trim()`), so
the reconstructed task is the original with `description` replaced by its
full trim; every other field survives exactly, for every task the system
itself produces (`NormalTask`) and any serialization/parse timestamps. -/
theorem c1_roundtrip (t : Task) (h : NormalTask t) (now1 now2 : Str) :
    parseMarkdownTask (taskToMarkdown (taskToRaw t) now1) now2 =
      .ok { t with description := trimStr t.description } := by
  have hlines : ∀ l ∈ [str "id: " ++ jsonStr t.id,
      str "title: " ++ jsonStr t.title,
      str "tags: " ++ jsonStrArray t.tags,
      str "done: " ++ jsonBool t.done,
      str "order: " ++ intToStr t.order,
      str "createdAt: " ++ jsonStr t.createdAt,
      str "updatedAt: " ++ jsonStr t.updatedAt],
      '\n' ∉ l ∧ l.head? ≠ some '-' ∧ l ≠ [] := by
    intro l hl
    simp only [List.mem_cons, List.not_mem_nil, or_false] at hl
    rcases hl with rfl | rfl | rfl | rfl | rfl | rfl | rfl
    · exact metaLine_facts _ 'i' (str "d: ") _ rfl (by decide) (by decide) (by decide)
        (jsonStr_no_newline _)
    · exact metaLine_facts _ 't' (str "itle: ") _ rfl (by decide) (by decide) (by decide)
        (jsonStr_no_newline _)
    · exact metaLine_facts _ 't' (str "ags: ") _ rfl (by decide) (by decide) (by decide)
        (jsonStrArray_no_newline _)
    · exact metaLine_facts _ 'd' (str "one: ") _ rfl (by decide) (by decide) (by decide)
        (jsonBool_no_newline _)
    · exact metaLine_facts _ 'o' (str "rder: ") _ rfl (by decide) (by decide) (by decide)
        (intToStr_no_newline _)
    · exact metaLine_facts _ 'c' (str "reatedAt: ") _ rfl (by decide) (by decide)
        (by decide) (jsonStr_no_newline _)
    · exact metaLine_facts _ 'u' (str "pdatedAt: ") _ rfl (by decide) (by decide)
        (by decide) (jsonStr_no_newline _)
  have hcontent : taskToMarkdown (taskToRaw t) now1 =
      '-' :: '-' :: '-' :: '\n' ::
        (joinChar '\n' [str "id: " ++ jsonStr t.id,
          str "title: " ++ jsonStr t.title,
          str "tags: " ++ jsonStrArray t.tags,
          str "done: " ++ jsonBool t.done,
          str "order: " ++ intToStr t.order,
          str "createdAt: " ++ jsonStr t.createdAt,
          str "updatedAt: " ++ jsonStr t.updatedAt] ++
          '\n' :: '-' :: '-' :: '-' ::
            ('\n' :: '\n' :: (trimRight t.description ++ ['\n']))) := by
    simp only [taskToMarkdown, normalizeTask_id_of_normal h now1]
    rw [show ([str "---",
        str "id: " ++ jsonStr t.id,
        str "title: " ++ jsonStr t.title,
        str "tags: " ++ jsonStrArray t.tags,
        str "done: " ++ jsonBool t.done,
        str "order: " ++ intToStr t.order,
        str "createdAt: " ++ jsonStr t.createdAt,
        str "updatedAt: " ++ jsonStr t.updatedAt,
        str "---", [], trimRight t.description, []] : List Str) =
      [str "---"] ++
        ([str "id: " ++ jsonStr t.id,
          str "title: " ++ jsonStr t.title,
          str "tags: " ++ jsonStrArray t.tags,
          str "done: " ++ jsonBool t.done,
          str "order: " ++ intToStr t.order,
          str "createdAt: " ++ jsonStr t.createdAt,
          str "updatedAt: " ++ jsonStr t.updatedAt] ++
          [str "---", [], trimRight t.description, []]) from rfl]
    rw [joinChar_append_of_ne_nil '\n' _ _ (by simp) (by simp),
      joinChar_append_of_ne_nil '\n' _ _ (by simp) (by simp)]
    rfl
  rw [hcontent,
    parseMarkdownTask_found _ now2 _ _
      (findInfixSplit_meta_block _ hlines
        ('\n' :: '\n' :: (trimRight t.description ++ ['\n'])))
      ('\n' :: (trimRight t.description ++ ['\n'])) rfl]
  rw [splitOnChar_joinChar _ (by simp) (fun l hl => (hlines l hl).1)]
  have hl2 : parseMetaLine (str "id: " ++ jsonStr t.id) =
      some (str "id", .vstr t.id) := by
    rw [show str "id: " ++ jsonStr t.id = str "id" ++ ':' :: ' ' :: jsonStr t.id from rfl]
    exact parseMetaLine_jsonStr _ _ (by decide) (by decide) (by decide)
  have hl3 : parseMetaLine (str "title: " ++ jsonStr t.title) =
      some (str "title", .vstr t.title) := by
    rw [show str "title: " ++ jsonStr t.title =
      str "title" ++ ':' :: ' ' :: jsonStr t.title from rfl]
    exact parseMetaLine_jsonStr _ _ (by decide) (by decide) (by decide)
  have hl4 : parseMetaLine (str "tags: " ++ jsonStrArray t.tags) =
      some (str "tags", .varr t.tags) := by
    rw [show str "tags: " ++ jsonStrArray t.tags =
      str "tags" ++ ':' :: ' ' :: jsonStrArray t.tags from rfl]
    exact parseMetaLine_jsonStrArray _ _ (by decide) (by decide) (by decide)
  have hl5 : parseMetaLine (str "done: " ++ jsonBool t.done) =
      some (str "done", .vbool t.done) := by
    rw [show str "done: " ++ jsonBool t.done =
      str "done" ++ ':' :: ' ' :: jsonBool t.done from rfl]
    exact parseMetaLine_jsonBool _ _ (by decide) (by decide) (by decide)
  have hl6 : parseMetaLine (str "order: " ++ intToStr t.order) =
      some (str "order", .vnum t.order) := by
    rw [show str "order: " ++ intToStr t.order =
      str "order" ++ ':' :: ' ' :: intToStr t.order from rfl]
    exact parseMetaLine_intToStr _ _ (by decide) (by decide) (by decide)
  have hl7 : parseMetaLine (str "createdAt: " ++ jsonStr t.createdAt) =
      some (str "createdAt", .vstr t.createdAt) := by
    rw [show str "createdAt: " ++ jsonStr t.createdAt =
      str "createdAt" ++ ':' :: ' ' :: jsonStr t.createdAt from rfl]
    exact parseMetaLine_jsonStr _ _ (by decide) (by decide) (by decide)
  have hl8 : parseMetaLine (str "updatedAt: " ++ jsonStr t.updatedAt) =
      some (str "updatedAt", .vstr t.updatedAt) := by
    rw [show str "updatedAt: " ++ jsonStr t.updatedAt =
      str "updatedAt" ++ ':' :: ' ' :: jsonStr t.updatedAt from rfl]
    exact parseMetaLine_jsonStr _ _ (by decide) (by decide) (by decide)
  simp only [List.filterMap_cons, hl2, hl3, hl4, hl5, hl6, hl7, hl8, List.filterMap_nil]
  have hbody : trimStr ('\n' :: (trimRight t.description ++ ['\n'])) =
      trimStr t.description := by
    rw [trimStr_cons_ws _ (by decide), trimStr_append_ws _ (by decide), trimStr_trimRight]
  rw [hbody]
  have hraw : { (List.foldl applyMeta {} [(str "id", JsVal.vstr t.id),
      (str "title", JsVal.vstr t.title),
      (str "tags", JsVal.varr t.tags),
      (str "done", JsVal.vbool t.done),
      (str "order", JsVal.vnum t.order),
      (str "createdAt", JsVal.vstr t.createdAt),
      (str "updatedAt", JsVal.vstr t.updatedAt)]) with
        description := JsVal.vstr (trimStr t.description) } =
      { taskToRaw t with description := JsVal.vstr (trimStr t.description) } := rfl
  rw [hraw, normalizeTask_of_normal h (trimStr t.description) now2]

/-- A stored task whose description carries leading whitespace. -/
def c1Task : Task :=
  { id := str "a1"
    title := str "Hello"
    description := str "  x"
    tags := [str "General"]
    done := false
    order := 0
    createdAt := str "C1"
    updatedAt := str "U1" }

/-- C1 counterexample: the round trip is NOT the identity "modulo trailing
whitespace in description" — a description with leading whitespace comes
back with the leading whitespace removed as well (`body.trim()`), so the
parsed description differs from the original even after stripping trailing
whitespace from both. -/
theorem c1_counterexample :
    (match parseMarkdownTask (taskToMarkdown (taskToRaw c1Task) (str "T1")) (str "T2") with
     | .ok t => trimRight t.description == trimRight c1Task.description
     | .error _ => true) = false := by decide

theorem c1_witness :
    NormalTask c1Task ∧
    parseMarkdownTask (taskToMarkdown (taskToRaw c1Task) (str "T1")) (str "T2") =
      .ok { c1Task with description := trimStr c1Task.description } :=
  ⟨by decide, c1_roundtrip c1Task (by decide) (str "T1") (str "T2")⟩

end MiniThings
